import Mathlib

/-!
Verification of the caffe2 DAG net scheduler (files src/caffe2/core/net_dag.cc and
src/caffe2/core/net_async_dag_gpu.cc of this repository).

The development shallowly embeds:
 * the synchronous chain executor DAGNet::RunAt (net_dag.cc, lines 310-334);
 * the asynchronous chain executor AsyncDAGNet::RunAt (net_async_dag_gpu.cc, lines 82-124)
   and the run wrapper AsyncDAGNet::Run (lines 126-139);
 * the run coordinator DAGNetBase::DoRunAsync (net_dag.cc, lines 109-179), split into
   a sequential action-trace skeleton plus an interleaving transition system for the
   worker pool DAGNetBase::WorkerFunction (net_dag.cc, lines 181-271);
 * the constructor worker-count logic (net_dag.cc, lines 74-82);
 * the chain partitioner (dag_utils::computeChains / dag_utils::singleChains); the file
   net_dag_utils.cc is not part of the corpus, so the partitioner is modelled from the
   specification text.

Operators are abstracted to their observable interface: each node index carries a fixed
boolean saying what its Run()/RunAsync() entry point returns.  Every occasion on which
the scheduler invokes an operator run entry point is recorded in an explicit trace, so
that claims about operators never being executed are expressible.
-/

namespace caffe2

/-! ## Synchronous chain execution: DAGNet::RunAt (net_dag.cc lines 310-334)

The source iterates over the chain members in order; for each member it invokes the
operator's synchronous Run() and returns false as soon as one returns false.  The model
returns the pair of (result, list of node indices whose Run() was invoked, in order). -/

/-- Model of DAGNet::RunAt.  Given the per-operator run outcome and the chain (a list of
node indices), returns the overall result together with the indices whose synchronous
Run() entry point was actually invoked, in order. -/
def DAGNet.RunAt (opRun : Nat → Bool) : List Nat → Bool × List Nat
  | [] => (true, [])
  | i :: rest =>
    if opRun i then
      let r := DAGNet.RunAt opRun rest
      (r.1, i :: r.2)
    else
      (false, [i])

/-! ## Asynchronous chain execution: AsyncDAGNet::RunAt (net_async_dag_gpu.cc lines 82-124)

The source first enforces that the chain is nonempty and that either the first node has
no parents or at least one parent has recorded an event; it then waits on all parents of
the first node, runs every member with success accumulated through the bitwise and
assignment (there is no early exit from the loop), records an event for the sink of the
chain, and enforces that the sink had not been recorded before.  Enforcement failures
are modelled as the None result. -/

/-- Model of AsyncDAGNet::RunAt.  Returns None when one of the CAFFE_ENFORCE conditions
fires (empty chain, no parent recorded an event, sink event already recorded).
Otherwise returns (success, invoked, waitedOn, updated eventRecorded), where invoked
lists in order every node whose RunAsync() entry point was invoked and waitedOn lists
the parents of the first node that were waited on. -/
def AsyncDAGNet.RunAt (parents : Nat → List Nat) (opRunAsync : Nat → Bool)
    (eventRecorded : Nat → Bool) (chain : List Nat) :
    Option (Bool × List Nat × List Nat × (Nat → Bool)) :=
  match chain with
  | [] => none
  | c :: cs =>
    if (parents c).isEmpty || (parents c).any (fun p => eventRecorded p) then
      let loop := (c :: cs).foldl
        (fun (acc : Bool × List Nat) idx => (acc.1 && opRunAsync idx, acc.2 ++ [idx]))
        (true, [])
      let sink := cs.getLastD c
      if eventRecorded sink then
        none
      else
        some (loop.1, loop.2, parents c, fun k => if k = sink then true else eventRecorded k)
    else
      none

/-! ## Asynchronous run wrapper: AsyncDAGNet::Run (net_async_dag_gpu.cc lines 126-139)

The source resets the per-node event-recorded vector, invokes the base run, then for
every execution chain calls the blocking Finish() on the event of the chain tail, and
finally returns the base result. -/

/-- Model of AsyncDAGNet::Run.  The chains are given as (chain-start index, member list)
pairs; the result records the returned boolean and the list of tail node indices on
which event().Finish() was invoked before returning. -/
def AsyncDAGNet.Run (baseResult : Bool) (chains : List (Nat × List Nat)) :
    Bool × List Nat :=
  (baseResult, chains.filterMap (fun c => c.2.getLast?))

/-! ## Run coordinator skeleton: DAGNetBase::DoRunAsync (net_dag.cc lines 109-179)

The concurrent middle of DoRunAsync (workers pulling chains) is modelled separately as
a transition system below.  The sequential skeleton of the coordinator is modelled as a
function from the observable resources (worker pool state carried across runs, the wait
outcome, and the runtime parent counts seen after the wait) to the ordered list of
actions performed, the returned value, and the pool state left for the next run. -/

/-- An action performed by the run coordinator, in program order. -/
inductive CoordAction where
  | startObservers
  | createQueue
  | startWorker
  | seed (chainId : Nat)
  | joinWorker
  | clearWorkers
  | destroyQueue
  | stopObservers
  deriving DecidableEq, Repr

/-- The way a coordinator invocation terminates: a normal boolean return, or an abort
through CAFFE_ENFORCE (fatal internal-consistency violation). -/
inductive RunReturn where
  | ret (success : Bool)
  | enforceFail
  deriving DecidableEq, Repr

/-- The run-invariant pool resources that survive across Run() invocations:
whether job_queue_ exists and how many threads workers_ currently holds. -/
structure PoolState where
  hasQueue : Bool
  numThreads : Nat
  deriving DecidableEq, Repr

/-- Model of the sequential skeleton of DAGNetBase::DoRunAsync.  Arguments:
numWorkersCfg is the configured num_workers_; frontier is initial_frontier_;
pool carries job_queue_ existence and workers_.size() into this run; waitSuccess is
the value of success_ observed when the completion wait finishes; counts are the
runtime parent counts of all nodes at that moment.  Returns the ordered action trace,
the return behaviour, and the pool state left behind. -/
def DAGNetBase.DoRunAsync (numWorkersCfg : Nat) (frontier : List Nat)
    (pool : PoolState) (waitSuccess : Bool) (counts : List Nat) :
    List CoordAction × RunReturn × PoolState :=
  let createActs := if pool.hasQueue then [] else [CoordAction.createQueue]
  let numToStart := numWorkersCfg - pool.numThreads
  let threads := pool.numThreads + numToStart
  let setup := [CoordAction.startObservers] ++ createActs ++
      List.replicate numToStart CoordAction.startWorker ++
      frontier.map CoordAction.seed
  if waitSuccess = false then
    (setup ++ List.replicate threads CoordAction.joinWorker ++
        [CoordAction.clearWorkers, CoordAction.destroyQueue],
     RunReturn.ret false,
     { hasQueue := false, numThreads := 0 })
  else if counts.all (fun c => c = 0) then
    (setup ++ [CoordAction.stopObservers], RunReturn.ret true,
     { hasQueue := true, numThreads := threads })
  else
    (setup, RunReturn.enforceFail, { hasQueue := true, numThreads := threads })

/-! ## Constructor worker-count logic (net_dag.cc lines 74-82)

The source reads num_workers from the NetDef when present (1 otherwise), enforces that
it is positive, and logs a warning when it equals 1. -/

/-- The outcome of the worker-count initialisation in the DAGNetBase constructor:
either construction aborts through CAFFE_ENFORCE, or it succeeds with the resulting
num_workers_ value and a flag telling whether the sequential-execution warning was
logged. -/
inductive WorkerInit where
  | fail
  | ok (numWorkers : Int) (warned : Bool)
  deriving DecidableEq, Repr

/-- Model of the worker-count initialisation: numWorkersField is the optional
num_workers field of the NetDef (None when the field is absent). -/
def DAGNetBase.initWorkers (numWorkersField : Option Int) : WorkerInit :=
  let n : Int := numWorkersField.getD 1
  if n > 0 then
    WorkerInit.ok n (decide (n = 1))
  else
    WorkerInit.fail

/-! ## Chain partitioner

The file caffe2/core/net_dag_utils.cc that implements dag_utils::computeChains and
dag_utils::singleChains is not part of the corpus (net_dag.cc only calls them at
construction, lines 49-54), so the partitioner is modelled from the specification. -/

/-- Modelled from the spec: the forward growth of one chain in
dag_utils::computeChains (net_dag_utils.cc, absent from the corpus).  Following the
spec, the chain grows forward from cur while cur has exactly one child, that child has
exactly one parent (namely cur), and the child is not already assigned; it stops
otherwise.  The fuel argument bounds the recursion; running out of fuel merely stops
the chain early, which can only make chains shorter, never break the partition. -/
def dag_utils.growChain (children parents : Nat → List Nat) :
    Nat → Nat → List Nat → List Nat
  | 0, cur, _ => [cur]
  | fuel + 1, cur, assigned =>
    match children cur with
    | [c] =>
      if parents c = [cur] ∧ c ∉ cur :: assigned then
        cur :: dag_utils.growChain children parents fuel c (cur :: assigned)
      else
        [cur]
    | _ => [cur]

/-- Modelled from the spec: the seed loop of dag_utils::computeChains.  Nodes are
visited in index order; a node already assigned to some chain is skipped, otherwise it
seeds a new chain grown forward from it, keyed by the seed (the chain-start node). -/
def dag_utils.computeChainsGo (children parents : Nat → List Nat) (fuel : Nat) :
    List Nat → List Nat → List (Nat × List Nat)
  | [], _ => []
  | i :: rest, assigned =>
    if i ∈ assigned then
      dag_utils.computeChainsGo children parents fuel rest assigned
    else
      let chain := dag_utils.growChain children parents fuel i assigned
      (i, chain) :: dag_utils.computeChainsGo children parents fuel rest (assigned ++ chain)

/-- Modelled from the spec: dag_utils::computeChains — partition the n-node dependency
graph into maximal sequential chains, returned as (chain-start index, ordered member
list) pairs. -/
def dag_utils.computeChains (n : Nat) (children parents : Nat → List Nat) :
    List (Nat × List Nat) :=
  dag_utils.computeChainsGo children parents n (List.range n) []

/-- Modelled from the spec: dag_utils::singleChains — the defensive mode in which every
node is its own chain. -/
def dag_utils.singleChains (n : Nat) : List (Nat × List Nat) :=
  (List.range n).map (fun i => (i, [i]))

/-! ## The worker pool as a transition system

DAGNetBase::DoRunAsync (net_dag.cc lines 109-179) seeds a job queue with the initial
frontier and then blocks until remaining_ops_ reaches 0 or success_ turns false, while
a pool of threads executes DAGNetBase::WorkerFunction (lines 181-271).  The concurrent
execution is modelled as an interleaving transition system.  One transition is one of
the atomic regions of the worker loop:

 * popRun — a worker pops a chain id from the queue, executes the chain through the
   virtual RunAt, and performs the dependency book-keeping (lines 189-240): for every
   member of the chain it decrements every child's runtime_parent_count_ and collects
   into chains_to_queue every child that reaches count 0 and is a chain start;
 * retire — Pop returns false because the queue is empty and closed, and the worker
   returns (lines 189-191);
 * lockFail / lockOk — the critical section under remaining_ops_mutex_ (lines 243-267):
   remaining_ops_ is decreased by the chain size and success_ is and-ed with the chain
   result; on failure the queue is closed and the worker returns; on success the
   collected chains are pushed.

The run-invariant data of the net is collected in DagNet below; operator outcomes are
the fixed opRun function.  The state additionally carries history lists (executed,
pushed, popped, finished) recording, in order, every operator run invocation, every
queue push, every queue pop and every completed critical section; these histories never
influence the behaviour. -/

/-- The run-invariant data of a DAG net: operator_nodes_ (parents_ and children_ per
node index), execution_chains_, is_chain_start_, the per-operator run outcome, and
num_workers_. -/
structure DagNet where
  numNodes : Nat
  parents : Nat → List Nat
  children : Nat → List Nat
  chains : List (Nat × List Nat)
  isChainStart : Nat → Bool
  opRun : Nat → Bool
  numWorkers : Nat

/-- The member list of the execution chain keyed by a chain-start index (the lookup in
execution_chains_, net_dag.cc line 209). -/
def DagNet.chainOf (net : DagNet) (idx : Nat) : List Nat :=
  (List.lookup idx net.chains).getD []

/-- The initial frontier: all nodes without parents (net_dag.cc lines 69-73). -/
def DagNet.initialFrontier (net : DagNet) : List Nat :=
  (List.range net.numNodes).filter (fun i => (net.parents i).isEmpty)

/-- The control state of one worker thread executing DAGNetBase::WorkerFunction. -/
inductive WorkerSt where
  | idle
  | ran (chainId : Nat) (ok : Bool) (toQueue : List Nat)
  | done
  deriving DecidableEq, Repr

/-- The shared state of one in-flight run. -/
structure RunState where
  queue : List Nat
  closed : Bool
  counts : Nat → Nat
  remaining : Nat
  success : Bool
  workers : Multiset WorkerSt
  executed : List Nat
  pushed : List Nat
  popped : List Nat
  finished : List Nat

/-- One step of the book-keeping loop body (net_dag.cc lines 219-239): decrement the
runtime parent count of one child; when the new count is 0 and the child is a chain
start, append it to chains_to_queue. -/
def bookkeepChild (isChainStart : Nat → Bool)
    (acc : (Nat → Nat) × List Nat) (child : Nat) : (Nat → Nat) × List Nat :=
  let c := acc.1 child - 1
  let counts := fun k => if k = child then c else acc.1 k
  if c = 0 ∧ isChainStart child = true then
    (counts, acc.2 ++ [child])
  else
    (counts, acc.2)

/-- The full book-keeping performed after running a chain (net_dag.cc lines 217-240):
for every member of the chain, process every child. -/
def bookkeepChain (net : DagNet) (chain : List Nat) (counts : Nat → Nat) :
    (Nat → Nat) × List Nat :=
  chain.foldl
    (fun acc i => (net.children i).foldl (bookkeepChild net.isChainStart) acc)
    (counts, [])

/-- The state after a popRun transition: the worker pops idx, runs the chain through
DAGNet::RunAt, and performs the book-keeping. -/
def popRunState (net : DagNet) (s : RunState) (idx : Nat) (rest : List Nat) : RunState :=
  { s with
    queue := rest
    counts := (bookkeepChain net (net.chainOf idx) s.counts).1
    workers := WorkerSt.ran idx (DAGNet.RunAt net.opRun (net.chainOf idx)).1
        (bookkeepChain net (net.chainOf idx) s.counts).2 ::ₘ
      s.workers.erase WorkerSt.idle
    executed := s.executed ++ (DAGNet.RunAt net.opRun (net.chainOf idx)).2
    popped := s.popped ++ [idx] }

/-- The state after a retire transition: an idle worker observes the closed empty queue
and returns. -/
def retireState (s : RunState) : RunState :=
  { s with workers := WorkerSt.done ::ₘ s.workers.erase WorkerSt.idle }

/-- The state after the critical section when this or an earlier chain failed
(net_dag.cc lines 244-256): remaining_ops_ decreases by the chain size, success_
becomes false, the queue is closed and the worker returns. -/
def lockFailState (net : DagNet) (s : RunState) (idx : Nat) (ok : Bool)
    (toQueue : List Nat) : RunState :=
  { s with
    remaining := s.remaining - (net.chainOf idx).length
    success := false
    closed := true
    workers := WorkerSt.done ::ₘ s.workers.erase (WorkerSt.ran idx ok toQueue)
    finished := s.finished ++ [idx] }

/-- The state after the critical section when no failure has been recorded (net_dag.cc
lines 244-266): remaining_ops_ decreases by the chain size and the collected chains are
pushed while the lock is held. -/
def lockOkState (net : DagNet) (s : RunState) (idx : Nat) (ok : Bool)
    (toQueue : List Nat) : RunState :=
  { s with
    remaining := s.remaining - (net.chainOf idx).length
    queue := s.queue ++ toQueue
    pushed := s.pushed ++ toQueue
    workers := WorkerSt.idle ::ₘ s.workers.erase (WorkerSt.ran idx ok toQueue)
    finished := s.finished ++ [idx] }

/-- The interleaving semantics of the worker pool: one transition per atomic region of
DAGNetBase::WorkerFunction. -/
inductive WorkerStep (net : DagNet) : RunState → RunState → Prop
  | popRun {s : RunState} (idx : Nat) (rest : List Nat) :
      WorkerSt.idle ∈ s.workers →
      s.queue = idx :: rest →
      WorkerStep net s (popRunState net s idx rest)
  | retire {s : RunState} :
      WorkerSt.idle ∈ s.workers →
      s.queue = [] →
      s.closed = true →
      WorkerStep net s (retireState s)
  | lockFail {s : RunState} (idx : Nat) (ok : Bool) (toQueue : List Nat) :
      WorkerSt.ran idx ok toQueue ∈ s.workers →
      (s.success && ok) = false →
      WorkerStep net s (lockFailState net s idx ok toQueue)
  | lockOk {s : RunState} (idx : Nat) (ok : Bool) (toQueue : List Nat) :
      WorkerSt.ran idx ok toQueue ∈ s.workers →
      (s.success && ok) = true →
      WorkerStep net s (lockOkState net s idx ok toQueue)

/-- The state of a run right after the coordinator seeded the queue (net_dag.cc lines
116-141): all counters reset, every parentless node's chain id pushed, all workers
idle. -/
def initRunState (net : DagNet) : RunState :=
  { queue := net.initialFrontier
    closed := false
    counts := fun j => (net.parents j).length
    remaining := net.numNodes
    success := true
    workers := Multiset.replicate net.numWorkers WorkerSt.idle
    executed := []
    pushed := net.initialFrontier
    popped := []
    finished := [] }

/-- The states reachable during one run. -/
inductive Reachable (net : DagNet) : RunState → Prop
  | init : Reachable net (initRunState net)
  | step {s t : RunState} : Reachable net s → WorkerStep net s t → Reachable net t

/-- The coordinator's wake-up condition (net_dag.cc lines 143-151): the wait loop exits
once remaining_ops_ is 0 or success_ is false. -/
def RunState.waitDone (s : RunState) : Prop :=
  s.remaining = 0 ∨ s.success = false

/-- Transitive dependency between nodes: dependsOn net j i holds when j consumes
(directly or transitively) an output of node i. -/
inductive DagNet.dependsOn (net : DagNet) : Nat → Nat → Prop
  | parent {i j : Nat} : i ∈ net.parents j → DagNet.dependsOn net j i
  | trans {i j k : Nat} : DagNet.dependsOn net j k → DagNet.dependsOn net k i →
      DagNet.dependsOn net j i

/-! ## Well-formedness of the run-invariant data

The scheduler relies on structural facts that the graph builder and the chain
partitioner establish at construction: the parent/child edge lists are duplicate-free
and mutually coherent, and the execution chains form a partition of the node set into
branch-free sequences.  These are stated as hypotheses of the scheduler theorems. -/

/-- Structural well-formedness of the dependency graph produced by the node graph
builder. -/
structure WFGraph (net : DagNet) : Prop where
  parents_nodup : ∀ j < net.numNodes, (net.parents j).Nodup
  parents_lt : ∀ j < net.numNodes, ∀ p ∈ net.parents j, p < net.numNodes
  children_nodup : ∀ i < net.numNodes, (net.children i).Nodup
  children_lt : ∀ i < net.numNodes, ∀ c ∈ net.children i, c < net.numNodes
  coherent : ∀ i < net.numNodes, ∀ j < net.numNodes,
      (i ∈ net.parents j ↔ j ∈ net.children i)

/-- Structural well-formedness of the execution chains: the chain keys are distinct,
every chain is nonempty and keyed by its first member, the chain members partition the
node set, consecutive chain members are linked by exactly-one-child/exactly-one-parent
edges, and is_chain_start_ marks exactly the chain keys. -/
structure WFChains (net : DagNet) : Prop where
  keys_nodup : (net.chains.map Prod.fst).Nodup
  head_eq : ∀ p ∈ net.chains, p.2.head? = some p.1
  flat_nodup : (net.chains.flatMap Prod.snd).Nodup
  flat_lt : ∀ j ∈ net.chains.flatMap Prod.snd, j < net.numNodes
  flat_cover : ∀ j < net.numNodes, j ∈ net.chains.flatMap Prod.snd
  shape : ∀ p ∈ net.chains,
      List.Chain' (fun u v => net.children u = [v] ∧ net.parents v = [u]) p.2
  start_iff : ∀ j < net.numNodes,
      (net.isChainStart j = true ↔ j ∈ net.chains.map Prod.fst)

/-! ## Derived state observations used by the invariants -/

/-- The chain ids a single worker has collected but not yet pushed. -/
def pendingOf : WorkerSt → Multiset Nat
  | WorkerSt.ran _ _ toQueue => (toQueue : Multiset Nat)
  | _ => 0

/-- The chain id a single worker has popped but not yet accounted for in the critical
section. -/
def inflightOf : WorkerSt → Multiset Nat
  | WorkerSt.ran idx _ _ => {idx}
  | _ => 0

/-- The multiset of chain ids collected but not yet pushed, across all workers. -/
def pendingQ (s : RunState) : Multiset Nat :=
  s.workers.bind pendingOf

/-- The multiset of chain ids popped by workers that have not yet completed the
critical section for them. -/
def inflight (s : RunState) : Multiset Nat :=
  s.workers.bind inflightOf

/-- The nodes whose book-keeping has been performed: the members of all popped
chains. -/
def bookkept (net : DagNet) (s : RunState) : List Nat :=
  s.popped.flatMap (fun idx => net.chainOf idx)

/-- The number of entries of ps that are not members of B. -/
def countNotIn (B ps : List Nat) : Nat :=
  (ps.filter (fun p => !(B.contains p))).length

/-- The total number of nodes covered by the chains keyed by the given ids. -/
def chainsSize (net : DagNet) (l : List Nat) : Nat :=
  (l.map (fun k => (net.chainOf k).length)).sum

/-- The inductive invariant of the worker-pool transition system. -/
structure Inv (net : DagNet) (s : RunState) : Prop where
  queue_eq : s.pushed = s.popped ++ s.queue
  fresh : ((s.pushed : Multiset Nat) + pendingQ s).Nodup
  pushed_start : ∀ j ∈ s.pushed, j < net.numNodes ∧ net.isChainStart j = true
  pending_start : ∀ j ∈ pendingQ s, j < net.numNodes ∧ net.isChainStart j = true
  pushed_ready : ∀ j ∈ s.pushed,
      net.parents j = [] ∨ (∀ p ∈ net.parents j, p ∈ bookkept net s)
  pending_ready : ∀ j ∈ pendingQ s,
      net.parents j ≠ [] ∧ ∀ p ∈ net.parents j, p ∈ bookkept net s
  counts_eq : ∀ j < net.numNodes, s.counts j = countNotIn (bookkept net s) (net.parents j)
  popped_split : (s.popped : Multiset Nat) = (s.finished : Multiset Nat) + inflight s
  remaining_eq : s.remaining + chainsSize net s.finished = net.numNodes
  ran_ok : ∀ st ∈ s.workers, ∀ idx ok toQueue, st = WorkerSt.ran idx ok toQueue →
      ok = (DAGNet.RunAt net.opRun (net.chainOf idx)).1
  executed_eq : s.executed =
      s.popped.flatMap (fun idx => (DAGNet.RunAt net.opRun (net.chainOf idx)).2)
  success_ok : s.success = true →
      ∀ k ∈ s.finished, (DAGNet.RunAt net.opRun (net.chainOf k)).1 = true

/-! ## Concrete fixtures

Small concrete nets on which the scheduler theorems are instantiated.  netC4 is a
one-node net whose single operator succeeds; netC1 is the three-node diamond-free
graph 0 → 2 ← 1 in single-node chains, where operator 0 fails and operators 1 and 2
succeed, executed by two workers. -/

/-- A one-node net whose operator succeeds. -/
def netC4 : DagNet :=
  { numNodes := 1
    parents := fun _ => []
    children := fun _ => []
    chains := [(0, [0])]
    isChainStart := fun j => decide (j = 0)
    opRun := fun _ => true
    numWorkers := 1 }

/-- netC4 after its single chain has been popped and run. -/
def runC4a : RunState := popRunState netC4 (initRunState netC4) 0 []

/-- netC4 after the worker completed the critical section: the run is complete and
successful. -/
def runC4b : RunState := lockOkState netC4 runC4a 0 true []

/-- The three-node net 0 → 2 ← 1 where operator 0 fails; two workers. -/
def netC1 : DagNet :=
  { numNodes := 3
    parents := fun j => if j = 2 then [0, 1] else []
    children := fun i => if i = 0 then [2] else if i = 1 then [2] else []
    chains := [(0, [0]), (1, [1]), (2, [2])]
    isChainStart := fun j => decide (j < 3)
    opRun := fun i => decide (¬ i = 0)
    numWorkers := 2 }

/-- netC1 after worker 1 popped and ran chain 0, which failed; the failure is not yet
recorded in the shared success flag, but node 2's runtime parent count has already
been decremented to 1. -/
def runC1a : RunState := popRunState netC1 (initRunState netC1) 0 [1]

/-- netC1 after worker 2 popped and ran chain 1, decrementing node 2's count to 0 and
collecting chain 2 for enqueueing. -/
def runC1b : RunState := popRunState netC1 runC1a 1 []

/-- netC1 after worker 2's critical section: the shared success flag still reads true,
so chain 2 is pushed. -/
def runC1c : RunState := lockOkState netC1 runC1b 1 true [2]

/-- netC1 after worker 2 popped and ran chain 2: node 2, a transitive dependent of the
failed node 0, has been executed. -/
def runC1d : RunState := popRunState netC1 runC1c 2 []

/-- netC1 after worker 1 finally records the failure: the queue closes and the run will
return failure. -/
def runC1e : RunState := lockFailState netC1 runC1d 0 false []

/-! # Lemmas and theorems -/

/-! ## Properties of the synchronous chain executor -/

theorem DAGNet.runAt_true_iff (opRun : Nat → Bool) (chain : List Nat) :
    (DAGNet.RunAt opRun chain).1 = true ↔ ∀ i ∈ chain, opRun i = true := by
  induction chain with
  | nil => simp [DAGNet.RunAt]
  | cons i rest ih =>
    by_cases h : opRun i
    · simp [DAGNet.RunAt, h, ih]
    · simp [DAGNet.RunAt, h]

theorem DAGNet.runAt_all_true (opRun : Nat → Bool) (chain : List Nat)
    (h : ∀ i ∈ chain, opRun i = true) :
    DAGNet.RunAt opRun chain = (true, chain) := by
  induction chain with
  | nil => simp [DAGNet.RunAt]
  | cons i rest ih =>
    have hi : opRun i = true := h i (by simp)
    have hrest := ih (fun j hj => h j (by simp [hj]))
    simp [DAGNet.RunAt, hi, hrest]

theorem DAGNet.runAt_first_fail (opRun : Nat → Bool) :
    ∀ (pre : List Nat) (i : Nat) (post : List Nat),
      (∀ j ∈ pre, opRun j = true) → opRun i = false →
      DAGNet.RunAt opRun (pre ++ i :: post) = (false, pre ++ [i]) := by
  intro pre
  induction pre with
  | nil =>
    intro i post _ hi
    simp [DAGNet.RunAt, hi]
  | cons a rest ih =>
    intro i post hall hi
    have ha : opRun a = true := hall a (by simp)
    have := ih i post (fun j hj => hall j (by simp [hj])) hi
    simp [DAGNet.RunAt, ha, this]

theorem DAGNet.runAt_mem_false (opRun : Nat → Bool) (chain : List Nat) (i : Nat)
    (hmem : i ∈ (DAGNet.RunAt opRun chain).2) (hfi : opRun i = false) :
    (DAGNet.RunAt opRun chain).1 = false := by
  induction chain with
  | nil => simp [DAGNet.RunAt] at hmem
  | cons a rest ih =>
    by_cases ha : opRun a
    · simp [DAGNet.RunAt, ha] at hmem ⊢
      rcases hmem with h | h
      · subst h; exact absurd ha (by simp [hfi])
      · exact ih h
    · simp [DAGNet.RunAt, ha]

/-! ## Properties of the asynchronous chain executor -/

theorem AsyncDAGNet.loop_spec (opRunAsync : Nat → Bool) :
    ∀ (chain : List Nat) (b : Bool) (acc : List Nat),
      chain.foldl (fun (a : Bool × List Nat) idx => (a.1 && opRunAsync idx, a.2 ++ [idx]))
          (b, acc) =
        (b && chain.all opRunAsync, acc ++ chain) := by
  intro chain
  induction chain with
  | nil => simp
  | cons i rest ih =>
    intro b acc
    simp only [List.foldl_cons, ih, List.all_cons]
    simp [Bool.and_assoc]

/-- C2 counterexample input: every operator fails; the chain has two members.  The
second member's RunAsync is still invoked after the first reported failure, refuting
the claimed short-circuit. -/
theorem claim_C2_counterexample :
    (fun _ : Nat => false) 0 = false ∧
    (AsyncDAGNet.RunAt (fun _ => []) (fun _ => false) (fun _ => false) [0, 1]).map
        (fun r => (r.1, r.2.1)) = some (false, [0, 1]) :=
  ⟨rfl, rfl⟩

/-- C2 amended: when the asynchronous variant executes a chain, it invokes each member
operator's RunAsync in sequence unconditionally — there is no short-circuit, every
member is invoked even after an earlier member reported failure — and the chain result
is true exactly when every member returned true. -/
theorem claim_C2_async_no_short_circuit (parents : Nat → List Nat)
    (opRunAsync : Nat → Bool) (eventRecorded : Nat → Bool) (c : Nat) (cs : List Nat)
    (hpar : ((parents c).isEmpty || (parents c).any (fun p => eventRecorded p)) = true)
    (hsink : eventRecorded (cs.getLastD c) = false) :
    (AsyncDAGNet.RunAt parents opRunAsync eventRecorded (c :: cs)).map
        (fun r => (r.1, r.2.1)) =
      some ((c :: cs).all opRunAsync, c :: cs) ∧
    ((c :: cs).all opRunAsync = true ↔ ∀ i ∈ c :: cs, opRunAsync i = true) := by
  constructor
  · simp only [List.getLastD_eq_getLast?] at hsink
    simp [AsyncDAGNet.RunAt, hpar, hsink, AsyncDAGNet.loop_spec]
  · exact List.all_eq_true

/-- C2 amended, witness at a concrete input: chain with two members where the first
fails and the second succeeds; both are invoked and the result is false. -/
theorem claim_C2_witness :
    (AsyncDAGNet.RunAt (fun _ => []) (fun i => decide (i = 1)) (fun _ => false) [0, 1]).map
        (fun r => (r.1, r.2.1)) =
      some (([0, 1] : List Nat).all (fun i => decide (i = 1)), [0, 1]) ∧
    (([0, 1] : List Nat).all (fun i => decide (i = 1)) = true ↔
      ∀ i ∈ ([0, 1] : List Nat), decide (i = 1) = true) :=
  claim_C2_async_no_short_circuit (fun _ => []) (fun i => decide (i = 1))
    (fun _ => false) 0 [1] (by decide) (by decide)

/-- C6: the synchronous variant's chain execution calls each member operator's Run in
chain order and returns false immediately on the first operator that returns false (no
later member is run); it returns true exactly when every member returns true. -/
theorem claim_C6_sync_short_circuit (opRun : Nat → Bool) (chain : List Nat) :
    ((DAGNet.RunAt opRun chain).1 = true ↔ ∀ i ∈ chain, opRun i = true) ∧
    ((∀ i ∈ chain, opRun i = true) → DAGNet.RunAt opRun chain = (true, chain)) ∧
    (∀ (pre : List Nat) (i : Nat) (post : List Nat), chain = pre ++ i :: post →
      (∀ j ∈ pre, opRun j = true) → opRun i = false →
      DAGNet.RunAt opRun chain = (false, pre ++ [i])) := by
  refine ⟨DAGNet.runAt_true_iff opRun chain, DAGNet.runAt_all_true opRun chain, ?_⟩
  intro pre i post hchain hpre hi
  subst hchain
  exact DAGNet.runAt_first_fail opRun pre i post hpre hi

/-- C6 witness at a concrete input: in the chain [0, 1, 2] where operator 1 fails,
operators 0 and 1 are invoked, operator 2 is not, and the result is false. -/
theorem claim_C6_witness :
    DAGNet.RunAt (fun i => decide (i ≠ 1)) [0, 1, 2] = (false, [0, 1]) :=
  (claim_C6_sync_short_circuit (fun i => decide (i ≠ 1)) [0, 1, 2]).2.2
    [0] 1 [2] rfl (by decide) (by decide)

/-! ## Properties of the asynchronous run wrapper -/

/-- C7: if the asynchronous variant's Run returns success then, before returning, the
blocking event().Finish() has been invoked on the tail node of every execution
chain. -/
theorem claim_C7_finish_on_success (baseResult : Bool) (chains : List (Nat × List Nat))
    (_hres : (AsyncDAGNet.Run baseResult chains).1 = true) :
    ∀ c ∈ chains, ∀ t, c.2.getLast? = some t →
      t ∈ (AsyncDAGNet.Run baseResult chains).2 := by
  intro c hc t ht
  simp only [AsyncDAGNet.Run, List.mem_filterMap]
  exact ⟨c, hc, ht⟩

/-- C7 witness at a concrete input: a successful run over two chains has Finished the
tails 1 and 2. -/
theorem claim_C7_witness :
    1 ∈ (AsyncDAGNet.Run true [(0, [0, 1]), (2, [2])]).2 :=
  claim_C7_finish_on_success true [(0, [0, 1]), (2, [2])] rfl (0, [0, 1])
    (by simp) 1 rfl

/-! ## Properties of the coordinator skeleton -/

/-- C8: when a run fails, before returning failure the coordinator joins every worker
thread, clears the worker pool and destroys the job queue; the next run then starts
from a clean slate, recreating the queue and the full complement of workers. -/
theorem claim_C8_failure_teardown (numWorkersCfg : Nat) (frontier : List Nat)
    (pool : PoolState) (counts : List Nat) (waitSuccess : Bool)
    (hfail : waitSuccess = false) :
    (∃ pre, (DAGNetBase.DoRunAsync numWorkersCfg frontier pool waitSuccess counts).1 =
        pre ++
          List.replicate (pool.numThreads + (numWorkersCfg - pool.numThreads))
            CoordAction.joinWorker ++
          [CoordAction.clearWorkers, CoordAction.destroyQueue]) ∧
    (DAGNetBase.DoRunAsync numWorkersCfg frontier pool waitSuccess counts).2.1 =
      RunReturn.ret false ∧
    (DAGNetBase.DoRunAsync numWorkersCfg frontier pool waitSuccess counts).2.2 =
      { hasQueue := false, numThreads := 0 } ∧
    (∀ ws cs, ∃ tail,
      (DAGNetBase.DoRunAsync numWorkersCfg frontier
          { hasQueue := false, numThreads := 0 } ws cs).1 =
        [CoordAction.startObservers, CoordAction.createQueue] ++
          List.replicate numWorkersCfg CoordAction.startWorker ++
          frontier.map CoordAction.seed ++ tail) := by
  subst hfail
  refine ⟨⟨[CoordAction.startObservers] ++
      (if pool.hasQueue then [] else [CoordAction.createQueue]) ++
      List.replicate (numWorkersCfg - pool.numThreads) CoordAction.startWorker ++
      frontier.map CoordAction.seed, ?_⟩, rfl, rfl, ?_⟩
  · simp [DAGNetBase.DoRunAsync]
  · intro ws cs
    by_cases hws : ws = false
    · subst hws
      refine ⟨List.replicate (0 + (numWorkersCfg - 0)) CoordAction.joinWorker ++
          [CoordAction.clearWorkers, CoordAction.destroyQueue], ?_⟩
      simp [DAGNetBase.DoRunAsync]
    · have hws' : ws = true := by
        cases ws
        · exact absurd rfl hws
        · rfl
      subst hws'
      by_cases hz : cs.all (fun c => c = 0) = true
      · exact ⟨[CoordAction.stopObservers], by simp [DAGNetBase.DoRunAsync, hz]⟩
      · exact ⟨[], by simp [DAGNetBase.DoRunAsync, hz]⟩

/-- C8 witness at a concrete input: a failing run with 2 configured workers and one
live thread. -/
theorem claim_C8_witness :
    (∃ pre, (DAGNetBase.DoRunAsync 2 [0] { hasQueue := true, numThreads := 1 }
        false [0, 0]).1 =
        pre ++ List.replicate (1 + (2 - 1)) CoordAction.joinWorker ++
          [CoordAction.clearWorkers, CoordAction.destroyQueue]) ∧
    (DAGNetBase.DoRunAsync 2 [0] { hasQueue := true, numThreads := 1 }
        false [0, 0]).2.1 = RunReturn.ret false ∧
    (DAGNetBase.DoRunAsync 2 [0] { hasQueue := true, numThreads := 1 }
        false [0, 0]).2.2 = { hasQueue := false, numThreads := 0 } ∧
    (∀ ws cs, ∃ tail,
      (DAGNetBase.DoRunAsync 2 [0] { hasQueue := false, numThreads := 0 } ws cs).1 =
        [CoordAction.startObservers, CoordAction.createQueue] ++
          List.replicate 2 CoordAction.startWorker ++
          [0].map CoordAction.seed ++ tail) :=
  claim_C8_failure_teardown 2 [0] { hasQueue := true, numThreads := 1 } [0, 0]
    false rfl

/-- C10: StartAllObservers runs before any execution on every invocation, but
StopAllObservers runs only on the success path: a failed run returns without invoking
it. -/
theorem claim_C10_observers_unbalanced (numWorkersCfg : Nat) (frontier : List Nat)
    (pool : PoolState) (counts : List Nat) :
    (∀ ws, ∃ tail,
      (DAGNetBase.DoRunAsync numWorkersCfg frontier pool ws counts).1 =
        CoordAction.startObservers :: tail) ∧
    CoordAction.stopObservers ∉
      (DAGNetBase.DoRunAsync numWorkersCfg frontier pool false counts).1 ∧
    (counts.all (fun c => c = 0) = true →
      CoordAction.stopObservers ∈
        (DAGNetBase.DoRunAsync numWorkersCfg frontier pool true counts).1) := by
  refine ⟨?_, ?_, ?_⟩
  · intro ws
    by_cases hws : ws = false
    · subst hws
      refine ⟨(if pool.hasQueue then [] else [CoordAction.createQueue]) ++
          List.replicate (numWorkersCfg - pool.numThreads) CoordAction.startWorker ++
          frontier.map CoordAction.seed ++
          List.replicate (pool.numThreads + (numWorkersCfg - pool.numThreads))
            CoordAction.joinWorker ++
          [CoordAction.clearWorkers, CoordAction.destroyQueue], ?_⟩
      simp [DAGNetBase.DoRunAsync]
    · have hws' : ws = true := by
        cases ws
        · exact absurd rfl hws
        · rfl
      subst hws'
      by_cases hz : counts.all (fun c => c = 0) = true
      · refine ⟨(if pool.hasQueue then [] else [CoordAction.createQueue]) ++
            List.replicate (numWorkersCfg - pool.numThreads) CoordAction.startWorker ++
            frontier.map CoordAction.seed ++ [CoordAction.stopObservers], ?_⟩
        simp [DAGNetBase.DoRunAsync, hz]
      · refine ⟨(if pool.hasQueue then [] else [CoordAction.createQueue]) ++
            List.replicate (numWorkersCfg - pool.numThreads) CoordAction.startWorker ++
            frontier.map CoordAction.seed, ?_⟩
        simp [DAGNetBase.DoRunAsync, hz]
  · rcases pool with ⟨hq, nt⟩
    cases hq <;> simp [DAGNetBase.DoRunAsync]
  · intro hz
    simp [DAGNetBase.DoRunAsync, hz]

/-- C10 witness at a concrete input. -/
theorem claim_C10_witness :
    (∀ ws, ∃ tail,
      (DAGNetBase.DoRunAsync 1 [0] { hasQueue := false, numThreads := 0 }
          ws [0]).1 = CoordAction.startObservers :: tail) ∧
    CoordAction.stopObservers ∉
      (DAGNetBase.DoRunAsync 1 [0] { hasQueue := false, numThreads := 0 }
          false [0]).1 ∧
    (([0] : List Nat).all (fun c => c = 0) = true →
      CoordAction.stopObservers ∈
        (DAGNetBase.DoRunAsync 1 [0] { hasQueue := false, numThreads := 0 }
            true [0]).1) :=
  claim_C10_observers_unbalanced 1 [0] { hasQueue := false, numThreads := 0 } [0]

/-! ## Properties of the constructor worker-count logic -/

/-- C9: a non-positive num_workers field aborts construction through CAFFE_ENFORCE;
an absent field defaults to one worker, with the sequential-execution warning
logged. -/
theorem claim_C9_worker_count (v : Int) (hv : v ≤ 0) :
    DAGNetBase.initWorkers (some v) = WorkerInit.fail ∧
    DAGNetBase.initWorkers none = WorkerInit.ok 1 true := by
  constructor
  · simp only [DAGNetBase.initWorkers, Option.getD_some]
    rw [if_neg (by omega)]
  · rfl

/-- C9 witness at a concrete input: num_workers = 0 aborts. -/
theorem claim_C9_witness :
    DAGNetBase.initWorkers (some 0) = WorkerInit.fail ∧
    DAGNetBase.initWorkers none = WorkerInit.ok 1 true :=
  claim_C9_worker_count 0 (by decide)

/-! ## Properties of the chain partitioner -/

theorem dag_utils.growChain_head (children parents : Nat → List Nat)
    (fuel cur : Nat) (assigned : List Nat) :
    ∃ tl, dag_utils.growChain children parents fuel cur assigned = cur :: tl := by
  cases fuel with
  | zero => exact ⟨[], rfl⟩
  | succ f =>
    simp only [dag_utils.growChain]
    split
    · split
      · exact ⟨_, rfl⟩
      · exact ⟨[], rfl⟩
    · exact ⟨[], rfl⟩

theorem dag_utils.growChain_fresh (children parents : Nat → List Nat) :
    ∀ (fuel cur : Nat) (assigned : List Nat), cur ∉ assigned →
      (dag_utils.growChain children parents fuel cur assigned).Nodup ∧
      ∀ x ∈ dag_utils.growChain children parents fuel cur assigned, x ∉ assigned := by
  intro fuel
  induction fuel with
  | zero =>
    intro cur assigned hcur
    exact ⟨List.nodup_singleton cur, by simpa [dag_utils.growChain] using hcur⟩
  | succ f ih =>
    intro cur assigned hcur
    simp only [dag_utils.growChain]
    split
    · split
      · next hcond =>
        obtain ⟨hpc, hcnot⟩ := hcond
        have hrec := ih _ (cur :: assigned) hcnot
        constructor
        · refine List.nodup_cons.mpr ⟨?_, hrec.1⟩
          intro hcurmem
          exact (hrec.2 cur hcurmem) (by simp)
        · intro x hx
          rcases List.mem_cons.mp hx with h | h
          · subst h; exact hcur
          · intro hxa
            exact (hrec.2 x h) (by simp [hxa])
      · exact ⟨List.nodup_singleton cur, by simpa using hcur⟩
    · exact ⟨List.nodup_singleton cur, by simpa using hcur⟩

theorem dag_utils.growChain_shape (children parents : Nat → List Nat) :
    ∀ (fuel cur : Nat) (assigned : List Nat),
      List.Chain' (fun u v => children u = [v] ∧ parents v = [u])
        (dag_utils.growChain children parents fuel cur assigned) := by
  intro fuel
  induction fuel with
  | zero => intro cur assigned; simp [dag_utils.growChain]
  | succ f ih =>
    intro cur assigned
    simp only [dag_utils.growChain]
    split
    · next c heq =>
      split
      · next hcond =>
        obtain ⟨tl, htl⟩ := dag_utils.growChain_head children parents f c (cur :: assigned)
        rw [htl]
        exact List.chain'_cons.mpr ⟨⟨heq, hcond.1⟩, htl ▸ ih c (cur :: assigned)⟩
      · simp
    · simp

theorem dag_utils.growChain_lt (children parents : Nat → List Nat) (n : Nat)
    (hch : ∀ i, i < n → ∀ x ∈ children i, x < n) :
    ∀ (fuel cur : Nat) (assigned : List Nat), cur < n →
      ∀ x ∈ dag_utils.growChain children parents fuel cur assigned, x < n := by
  intro fuel
  induction fuel with
  | zero =>
    intro cur assigned hcur x hx
    simpa using (List.mem_singleton.mp hx) ▸ hcur
  | succ f ih =>
    intro cur assigned hcur x hx
    rw [dag_utils.growChain] at hx
    revert hx
    split
    · next c heq =>
      split
      · next hcond =>
        intro hx
        rcases List.mem_cons.mp hx with h | h
        · exact h ▸ hcur
        · have hc : c < n := hch cur hcur c (by simp [heq])
          exact ih c (cur :: assigned) hc x h
      · intro hx; exact (List.mem_singleton.mp hx) ▸ hcur
    · intro hx; exact (List.mem_singleton.mp hx) ▸ hcur

theorem dag_utils.computeChainsGo_fresh (children parents : Nat → List Nat)
    (fuel : Nat) :
    ∀ (todo assigned : List Nat),
      ((dag_utils.computeChainsGo children parents fuel todo assigned).flatMap
          Prod.snd).Nodup ∧
      ∀ x ∈ (dag_utils.computeChainsGo children parents fuel todo assigned).flatMap
          Prod.snd, x ∉ assigned := by
  intro todo
  induction todo with
  | nil => intro assigned; simp [dag_utils.computeChainsGo]
  | cons i rest ih =>
    intro assigned
    simp only [dag_utils.computeChainsGo]
    split
    · exact ih assigned
    · next hnot =>
      have hgrow := dag_utils.growChain_fresh children parents fuel i assigned hnot
      have hrec := ih (assigned ++ dag_utils.growChain children parents fuel i assigned)
      simp only [List.flatMap_cons]
      constructor
      · refine List.nodup_append.mpr ⟨hgrow.1, hrec.1, ?_⟩
        intro x hx hx'
        exact (hrec.2 x hx') (by simp [hx])
      · intro x hx
        rcases List.mem_append.mp hx with h | h
        · exact hgrow.2 x h
        · intro hxa
          exact (hrec.2 x h) (by simp [hxa])

theorem dag_utils.computeChainsGo_cover (children parents : Nat → List Nat)
    (fuel : Nat) :
    ∀ (todo assigned : List Nat), ∀ j ∈ todo,
      j ∈ assigned ∨
      j ∈ (dag_utils.computeChainsGo children parents fuel todo assigned).flatMap
          Prod.snd := by
  intro todo
  induction todo with
  | nil => intro assigned j hj; simp at hj
  | cons i rest ih =>
    intro assigned j hj
    simp only [dag_utils.computeChainsGo]
    split
    · next hmem =>
      rcases List.mem_cons.mp hj with h | h
      · exact Or.inl (h ▸ hmem)
      · exact ih assigned j h
    · next hnot =>
      simp only [List.flatMap_cons]
      rcases List.mem_cons.mp hj with h | h
      · subst h
        obtain ⟨tl, htl⟩ := dag_utils.growChain_head children parents fuel j assigned
        exact Or.inr (List.mem_append.mpr (Or.inl (by simp [htl])))
      · exact match ih (assigned ++ dag_utils.growChain children parents fuel i assigned) j h with
        | Or.inl ha =>
            match List.mem_append.mp ha with
            | Or.inl h1 => Or.inl h1
            | Or.inr h2 => Or.inr (List.mem_append.mpr (Or.inl h2))
        | Or.inr hf => Or.inr (List.mem_append.mpr (Or.inr hf))

theorem dag_utils.computeChainsGo_entries (children parents : Nat → List Nat)
    (fuel : Nat) :
    ∀ (todo assigned : List Nat),
      ∀ p ∈ dag_utils.computeChainsGo children parents fuel todo assigned,
        p.2.head? = some p.1 ∧
        List.Chain' (fun u v => children u = [v] ∧ parents v = [u]) p.2 := by
  intro todo
  induction todo with
  | nil => intro assigned p hp; simp [dag_utils.computeChainsGo] at hp
  | cons i rest ih =>
    intro assigned p hp
    rw [dag_utils.computeChainsGo] at hp
    revert hp
    split
    · intro hp; exact ih assigned p hp
    · intro hp
      rcases List.mem_cons.mp hp with h | h
      · subst h
        obtain ⟨tl, htl⟩ := dag_utils.growChain_head children parents fuel i assigned
        exact ⟨by simp [htl], dag_utils.growChain_shape children parents fuel i assigned⟩
      · exact ih _ p h

theorem dag_utils.computeChainsGo_lt (children parents : Nat → List Nat) (n : Nat)
    (hch : ∀ i, i < n → ∀ x ∈ children i, x < n) (fuel : Nat) :
    ∀ (todo assigned : List Nat), (∀ j ∈ todo, j < n) →
      ∀ x ∈ (dag_utils.computeChainsGo children parents fuel todo assigned).flatMap
          Prod.snd, x < n := by
  intro todo
  induction todo with
  | nil => intro assigned htodo x hx; simp [dag_utils.computeChainsGo] at hx
  | cons i rest ih =>
    intro assigned htodo x hx
    rw [dag_utils.computeChainsGo] at hx
    revert hx
    split
    · intro hx; exact ih assigned (fun j hj => htodo j (by simp [hj])) x hx
    · intro hx
      simp only [List.flatMap_cons] at hx
      rcases List.mem_append.mp hx with h | h
      · exact dag_utils.growChain_lt children parents n hch fuel i assigned
          (htodo i (by simp)) x h
      · exact ih _ (fun j hj => htodo j (by simp [hj])) x h

theorem chainsKeys_nodup_of (L : List (Nat × List Nat))
    (hhead : ∀ p ∈ L, p.2.head? = some p.1)
    (hflat : (L.flatMap Prod.snd).Nodup) :
    (L.map Prod.fst).Nodup := by
  induction L with
  | nil => simp
  | cons p rest ih =>
    simp only [List.flatMap_cons] at hflat
    obtain ⟨hp2, hflat', hdisj⟩ := List.nodup_append.mp hflat
    refine List.nodup_cons.mpr ⟨?_, ih (fun q hq => hhead q (by simp [hq])) hflat'⟩
    intro hmem
    obtain ⟨q, hq, hq1⟩ := List.mem_map.mp hmem
    have hpmem : p.1 ∈ p.2 := List.mem_of_mem_head? (by rw [hhead p (by simp)]; simp)
    have hqmem : q.1 ∈ q.2 := List.mem_of_mem_head? (by rw [hhead q (by simp [hq])]; simp)
    exact hdisj hpmem (hq1 ▸ List.mem_flatMap.mpr ⟨q, hq, hqmem⟩)

/-- C5: in computed-chain mode the chains partition the node set (membership in the
flattened chain list is a permutation of the node range), every internal chain node
has exactly one parent and one child, namely its chain neighbours; in single-chain
mode every node is its own chain. -/
theorem claim_C5_chain_partition (n : Nat) (children parents : Nat → List Nat)
    (hch : ∀ i, i < n → ∀ x ∈ children i, x < n) :
    ((dag_utils.computeChains n children parents).flatMap Prod.snd).Perm
        (List.range n) ∧
    (∀ p ∈ dag_utils.computeChains n children parents,
      ∀ (l₁ : List Nat) (u v w : Nat) (l₂ : List Nat),
        p.2 = l₁ ++ u :: v :: w :: l₂ → parents v = [u] ∧ children v = [w]) ∧
    ((dag_utils.singleChains n).map Prod.fst = List.range n ∧
      ∀ p ∈ dag_utils.singleChains n, p.2 = [p.1] ∧
        (dag_utils.singleChains n).flatMap Prod.snd = List.range n) := by
  refine ⟨?_, ?_, ?_, ?_⟩
  · have hfresh := dag_utils.computeChainsGo_fresh children parents n (List.range n) []
    have hcover := dag_utils.computeChainsGo_cover children parents n (List.range n) []
    have hlt := dag_utils.computeChainsGo_lt children parents n hch n (List.range n) []
        (fun j hj => List.mem_range.mp hj)
    simp only [dag_utils.computeChains]
    rw [List.perm_ext_iff_of_nodup hfresh.1 (List.nodup_range n)]
    intro a
    constructor
    · intro ha
      exact List.mem_range.mpr (hlt a ha)
    · intro ha
      rcases hcover a (List.mem_range.mpr (List.mem_range.mp ha)) with h | h
      · simp at h
      · exact h
  · intro p hp l₁ u v w l₂ hsplit
    have hshape := (dag_utils.computeChainsGo_entries children parents n
        (List.range n) [] p hp).2
    rw [hsplit] at hshape
    have h2 := (List.chain'_append.mp hshape).2.1
    have h3 := List.chain'_cons.mp h2
    have h4 := List.chain'_cons.mp h3.2
    exact ⟨h3.1.2, h4.1.1⟩
  · rw [dag_utils.singleChains, List.map_map]
    exact List.map_id (List.range n)
  · intro p hp
    obtain ⟨i, hi, hpi⟩ := List.mem_map.mp hp
    refine ⟨by rw [← hpi], ?_⟩
    simp [dag_utils.singleChains, List.flatMap_map]

/-- C5 witness at a concrete input: the 3-node linear graph collapses to the single
chain [0, 1, 2], and the claimed partition properties hold for it. -/
theorem claim_C5_witness :
    ((dag_utils.computeChains 3
        (fun i => if i = 0 then [1] else if i = 1 then [2] else [])
        (fun i => if i = 1 then [0] else if i = 2 then [1] else [])).flatMap
          Prod.snd).Perm (List.range 3) :=
  (claim_C5_chain_partition 3
    (fun i => if i = 0 then [1] else if i = 1 then [2] else [])
    (fun i => if i = 1 then [0] else if i = 2 then [1] else [])
    (by decide)).1

/-! ## Counting helpers for the runtime parent counts -/

theorem contains_eq_decide_mem (B : List Nat) (p : Nat) :
    B.contains p = decide (p ∈ B) := List.elem_eq_mem p B

theorem countNotIn_filter_pred (B : List Nat) (p : Nat) :
    (!B.contains p) = true ↔ p ∉ B := by
  rw [contains_eq_decide_mem]
  simp

theorem countNotIn_nil (ps : List Nat) : countNotIn [] ps = ps.length := by
  unfold countNotIn
  rw [List.filter_length_eq_length.mpr]
  intro a _
  rw [countNotIn_filter_pred]
  simp

theorem countNotIn_eq_zero_iff (B ps : List Nat) :
    countNotIn B ps = 0 ↔ ∀ p ∈ ps, p ∈ B := by
  rw [countNotIn, List.length_eq_zero, List.filter_eq_nil_iff]
  constructor
  · intro h p hp
    by_contra hmem
    exact h p hp ((countNotIn_filter_pred B p).mpr hmem)
  · intro h p hp hpred
    exact ((countNotIn_filter_pred B p).mp hpred) (h p hp)

theorem countNotIn_pos (B ps : List Nat) (p : Nat) (hp : p ∈ ps) (hB : p ∉ B) :
    0 < countNotIn B ps := by
  by_contra h
  have h0 : countNotIn B ps = 0 := by omega
  exact hB ((countNotIn_eq_zero_iff B ps).mp h0 p hp)

theorem countNotIn_cons_of_notmem (B ps : List Nat) (a : Nat) (ha : a ∉ B) :
    countNotIn B (a :: ps) = countNotIn B ps + 1 := by
  unfold countNotIn
  rw [List.filter_cons, if_pos ((countNotIn_filter_pred B a).mpr ha)]
  simp

theorem countNotIn_cons_of_mem (B ps : List Nat) (a : Nat) (ha : a ∈ B) :
    countNotIn B (a :: ps) = countNotIn B ps := by
  unfold countNotIn
  rw [List.filter_cons, if_neg]
  intro hpred
  exact (countNotIn_filter_pred B a).mp hpred ha

theorem countNotIn_append_notmem (B ps : List Nat) (c : Nat) (hc : c ∉ ps) :
    countNotIn (B ++ [c]) ps = countNotIn B ps := by
  unfold countNotIn
  congr 1
  apply List.filter_congr
  intro p hp
  have hpc : ¬ p = c := fun h => hc (h ▸ hp)
  rw [contains_eq_decide_mem, contains_eq_decide_mem]
  by_cases hmem : p ∈ B
  · simp [hmem]
  · simp [hmem, hpc]

theorem countNotIn_append_mem (B : List Nat) (c : Nat) :
    ∀ (ps : List Nat), ps.Nodup → c ∈ ps → c ∉ B →
      countNotIn B ps = countNotIn (B ++ [c]) ps + 1 := by
  intro ps
  induction ps with
  | nil => intro _ h; simp at h
  | cons a rest ih =>
    intro hnd hc hcB
    obtain ⟨ha, hrest⟩ := List.nodup_cons.mp hnd
    by_cases hac : c = a
    · subst hac
      have hcBc : c ∈ B ++ [c] := by simp
      rw [countNotIn_cons_of_notmem B rest c hcB,
        countNotIn_cons_of_mem (B ++ [c]) rest c hcBc,
        countNotIn_append_notmem B rest c ha]
    · have hcrest : c ∈ rest := by
        rcases List.mem_cons.mp hc with h | h
        · exact absurd h hac
        · exact h
      have hstep := ih hrest hcrest hcB
      by_cases haB : a ∈ B
      · rw [countNotIn_cons_of_mem B rest a haB,
          countNotIn_cons_of_mem (B ++ [c]) rest a (by simp [haB]), hstep]
      · have haBc : a ∉ B ++ [c] := by
          intro hmem
          rcases List.mem_append.mp hmem with h | h
          · exact haB h
          · exact hac ((List.mem_singleton.mp h).symm)
        rw [countNotIn_cons_of_notmem B rest a haB,
          countNotIn_cons_of_notmem (B ++ [c]) rest a haBc, hstep]

theorem countNotIn_mono_superset (B B' ps : List Nat) (hBB : ∀ x ∈ B, x ∈ B')
    (h0 : countNotIn B ps = 0) : countNotIn B' ps = 0 := by
  rw [countNotIn_eq_zero_iff] at h0 ⊢
  exact fun p hp => hBB p (h0 p hp)

/-! ## Association list and chain partition helpers -/

theorem lookup_eq_of_mem_keys :
    ∀ (L : List (Nat × List Nat)), (L.map Prod.fst).Nodup →
      ∀ {k : Nat} {l : List Nat}, (k, l) ∈ L → List.lookup k L = some l := by
  intro L
  induction L with
  | nil => intro _ k l h; simp at h
  | cons p rest ih =>
    intro hnd k l hmem
    rw [List.map_cons] at hnd
    obtain ⟨hp, hrest⟩ := List.nodup_cons.mp hnd
    rcases List.mem_cons.mp hmem with h | h
    · cases h
      simp [List.lookup]
    · have hk : ¬ k = p.1 := by
        intro hkp
        exact hp (hkp ▸ List.mem_map_of_mem Prod.fst h)
      have hb : (k == p.1) = false := beq_eq_false_iff_ne.mpr hk
      cases p with
      | mk a b =>
        simp only [List.lookup, hb]
        exact ih hrest h

theorem mem_keys_elim (L : List (Nat × List Nat)) (k : Nat)
    (h : k ∈ L.map Prod.fst) : ∃ l, (k, l) ∈ L := by
  obtain ⟨p, hp, hpk⟩ := List.mem_map.mp h
  exact ⟨p.2, by rwa [show (k, p.2) = p from Prod.ext hpk.symm rfl]⟩

theorem chains_disjoint_of_flat_nodup :
    ∀ (L : List (Nat × List Nat)), (L.flatMap Prod.snd).Nodup →
      ∀ {k₁ : Nat} {l₁ : List Nat} {k₂ : Nat} {l₂ : List Nat},
        (k₁, l₁) ∈ L → (k₂, l₂) ∈ L → ¬ k₁ = k₂ →
        ∀ x ∈ l₁, x ∉ l₂ := by
  intro L
  induction L with
  | nil => intro _ k₁ l₁ k₂ l₂ h; simp at h
  | cons p rest ih =>
    intro hflat k₁ l₁ k₂ l₂ h1 h2 hne
    simp only [List.flatMap_cons] at hflat
    obtain ⟨hp2, hflat', hdisj⟩ := List.nodup_append.mp hflat
    rcases List.mem_cons.mp h1 with e1 | e1 <;> rcases List.mem_cons.mp h2 with e2 | e2
    · exfalso
      apply hne
      have hk1 : k₁ = p.1 := by rw [← e1]
      have hk2 : k₂ = p.1 := by rw [← e2]
      rw [hk1, hk2]
    · intro x hx hx2
      have hxp : x ∈ p.2 := by rw [← e1]; exact hx
      exact hdisj hxp (List.mem_flatMap.mpr ⟨(k₂, l₂), e2, hx2⟩)
    · intro x hx hx2
      have hxp : x ∈ p.2 := by rw [← e2]; exact hx2
      exact hdisj hxp (List.mem_flatMap.mpr ⟨(k₁, l₁), e1, hx⟩)
    · exact ih hflat' e1 e2 hne

theorem DagNet.chainOf_eq (net : DagNet) (hcv : WFChains net) {k : Nat}
    {l : List Nat} (hmem : (k, l) ∈ net.chains) : net.chainOf k = l := by
  rw [DagNet.chainOf, lookup_eq_of_mem_keys net.chains hcv.keys_nodup hmem]
  rfl

theorem DagNet.chainOf_mem_chains (net : DagNet) (hcv : WFChains net) {k : Nat}
    (hk : k ∈ net.chains.map Prod.fst) : (k, net.chainOf k) ∈ net.chains := by
  obtain ⟨l, hl⟩ := mem_keys_elim net.chains k hk
  rwa [DagNet.chainOf_eq net hcv hl]

theorem DagNet.chainOf_head (net : DagNet) (hcv : WFChains net) {k : Nat}
    (hk : k ∈ net.chains.map Prod.fst) : (net.chainOf k).head? = some k :=
  hcv.head_eq (k, net.chainOf k) (DagNet.chainOf_mem_chains net hcv hk)

theorem DagNet.chainOf_ne_nil (net : DagNet) (hcv : WFChains net) {k : Nat}
    (hk : k ∈ net.chains.map Prod.fst) : net.chainOf k ≠ [] := by
  intro h
  have := DagNet.chainOf_head net hcv hk
  rw [h] at this
  exact Option.noConfusion this

theorem DagNet.self_mem_chainOf (net : DagNet) (hcv : WFChains net) {k : Nat}
    (hk : k ∈ net.chains.map Prod.fst) : k ∈ net.chainOf k :=
  List.mem_of_mem_head? (by rw [DagNet.chainOf_head net hcv hk]; simp)

theorem DagNet.chainOf_sub_flat (net : DagNet) (hcv : WFChains net) {k : Nat}
    (hk : k ∈ net.chains.map Prod.fst) {x : Nat} (hx : x ∈ net.chainOf k) :
    x ∈ net.chains.flatMap Prod.snd :=
  List.mem_flatMap.mpr ⟨(k, net.chainOf k), DagNet.chainOf_mem_chains net hcv hk, hx⟩

theorem DagNet.chainOf_lt (net : DagNet) (hcv : WFChains net) {k : Nat}
    (hk : k ∈ net.chains.map Prod.fst) {x : Nat} (hx : x ∈ net.chainOf k) :
    x < net.numNodes :=
  hcv.flat_lt x (DagNet.chainOf_sub_flat net hcv hk hx)

theorem DagNet.chainOf_nodup (net : DagNet) (hcv : WFChains net) {k : Nat}
    (hk : k ∈ net.chains.map Prod.fst) : (net.chainOf k).Nodup := by
  have hmem : net.chainOf k ∈ net.chains.map Prod.snd :=
    List.mem_map_of_mem Prod.snd (DagNet.chainOf_mem_chains net hcv hk)
  have hsub := List.sublist_flatten_of_mem hmem
  rw [← List.flatMap_def] at hsub
  exact hsub.nodup hcv.flat_nodup

theorem DagNet.chainOf_disjoint (net : DagNet) (hcv : WFChains net) {k₁ k₂ : Nat}
    (hk₁ : k₁ ∈ net.chains.map Prod.fst) (hk₂ : k₂ ∈ net.chains.map Prod.fst)
    (hne : ¬ k₁ = k₂) : ∀ x ∈ net.chainOf k₁, x ∉ net.chainOf k₂ :=
  chains_disjoint_of_flat_nodup net.chains hcv.flat_nodup
    (DagNet.chainOf_mem_chains net hcv hk₁) (DagNet.chainOf_mem_chains net hcv hk₂) hne

theorem chain'_pred_of_ne_head (R : Nat → Nat → Prop) :
    ∀ (l : List Nat) (h j : Nat), List.Chain' R l → l.head? = some h → j ∈ l →
      ¬ j = h → ∃ u ∈ l, R u j := by
  intro l
  induction l with
  | nil => intro h j _ _ hj; simp at hj
  | cons a rest ih =>
    intro h j hchain hhead hj hne
    have ha : a = h := by simpa using hhead
    subst ha
    rcases List.mem_cons.mp hj with e | e
    · exact absurd e hne
    · cases rest with
      | nil => simp at e
      | cons b rest' =>
        obtain ⟨hab, hchain'⟩ := List.chain'_cons.mp hchain
        by_cases hjb : j = b
        · exact ⟨a, by simp, hjb ▸ hab⟩
        · obtain ⟨u, hu, hru⟩ := ih b j hchain' rfl e hjb
          exact ⟨u, by simp [hu], hru⟩

theorem DagNet.parentless_chain_start (net : DagNet) (hcv : WFChains net)
    {j : Nat} (hj : j < net.numNodes) (hp : net.parents j = []) :
    net.isChainStart j = true ∧ j ∈ net.chains.map Prod.fst := by
  have hjf := hcv.flat_cover j hj
  obtain ⟨p, hpmem, hjp⟩ := List.mem_flatMap.mp hjf
  have hhead := hcv.head_eq p hpmem
  by_cases hjh : j = p.1
  · have : j ∈ net.chains.map Prod.fst := hjh ▸ List.mem_map_of_mem Prod.fst hpmem
    exact ⟨(hcv.start_iff j hj).mpr this, this⟩
  · obtain ⟨u, _, hru⟩ := chain'_pred_of_ne_head _ p.2 p.1 j
      (hcv.shape p hpmem) hhead hjp hjh
    rw [hp] at hru
    exact absurd hru.2 (by simp)

/-! ## Sizes of chain id collections -/

theorem multiset_sum_le (s t : Multiset Nat) (h : s ≤ t) : s.sum ≤ t.sum := by
  obtain ⟨u, rfl⟩ := Multiset.le_iff_exists_add.mp h
  rw [Multiset.sum_add]
  exact Nat.le_add_right _ _

theorem multiset_le_of_nodup_subset (l keys : List Nat) (hl : l.Nodup)
    (hkeys : keys.Nodup) (hsub : ∀ a ∈ l, a ∈ keys) :
    (l : Multiset Nat) ≤ (keys : Multiset Nat) := by
  rw [Multiset.le_iff_count]
  intro a
  rw [Multiset.coe_count, Multiset.coe_count]
  by_cases ha : a ∈ l
  · rw [List.count_eq_one_of_mem hl ha, List.count_eq_one_of_mem hkeys (hsub a ha)]
  · rw [List.count_eq_zero_of_not_mem ha]
    exact Nat.zero_le _

theorem chainsSize_coe (net : DagNet) (l : List Nat) :
    chainsSize net l = ((l : Multiset Nat).map (fun k => (net.chainOf k).length)).sum := by
  rw [Multiset.map_coe, Multiset.sum_coe]
  rfl

theorem chainsSize_append (net : DagNet) (l₁ l₂ : List Nat) :
    chainsSize net (l₁ ++ l₂) = chainsSize net l₁ + chainsSize net l₂ := by
  simp [chainsSize]

theorem chainsSize_total (net : DagNet) (hcv : WFChains net) :
    chainsSize net (net.chains.map Prod.fst) = net.numNodes := by
  have h1 : chainsSize net (net.chains.map Prod.fst) =
      (net.chains.map (fun p => p.2.length)).sum := by
    rw [chainsSize, List.map_map]
    congr 1
    apply List.map_congr_left
    intro p hp
    simp only [Function.comp_apply]
    rw [DagNet.chainOf_eq net hcv hp]
  have h2 : (net.chains.flatMap Prod.snd).length = net.numNodes := by
    have hperm : (net.chains.flatMap Prod.snd).Perm (List.range net.numNodes) := by
      rw [List.perm_ext_iff_of_nodup hcv.flat_nodup (List.nodup_range _)]
      intro a
      constructor
      · intro ha; exact List.mem_range.mpr (hcv.flat_lt a ha)
      · intro ha; exact hcv.flat_cover a (List.mem_range.mp ha)
    rw [hperm.length_eq, List.length_range]
  rw [h1, ← h2, List.length_flatMap]
  congr 1

theorem chainsSize_le_total (net : DagNet) (hcv : WFChains net) (l : List Nat)
    (hl : l.Nodup) (hsub : ∀ k ∈ l, k ∈ net.chains.map Prod.fst) :
    chainsSize net l ≤ net.numNodes := by
  have hle := multiset_le_of_nodup_subset l (net.chains.map Prod.fst) hl
    hcv.keys_nodup hsub
  have := multiset_sum_le _ _ (Multiset.map_le_map (f := fun k => (net.chainOf k).length) hle)
  rw [← chainsSize_coe, ← chainsSize_coe] at this
  rw [chainsSize_total net hcv] at this
  exact this

theorem chainsSize_lt_total (net : DagNet) (hcv : WFChains net) (l : List Nat)
    (hl : l.Nodup) (hsub : ∀ k ∈ l, k ∈ net.chains.map Prod.fst) (k₀ : Nat)
    (hk₀ : k₀ ∈ net.chains.map Prod.fst) (hk₀l : k₀ ∉ l) :
    chainsSize net l + (net.chainOf k₀).length ≤ net.numNodes := by
  have hcons : (k₀ :: l).Nodup := List.nodup_cons.mpr ⟨hk₀l, hl⟩
  have hsub' : ∀ k ∈ k₀ :: l, k ∈ net.chains.map Prod.fst := by
    intro k hk
    rcases List.mem_cons.mp hk with h | h
    · exact h ▸ hk₀
    · exact hsub k h
  have := chainsSize_le_total net hcv (k₀ :: l) hcons hsub'
  simp only [chainsSize, List.map_cons, List.sum_cons] at this
  rw [chainsSize]
  omega

/-! ## Characterisation of the dependency book-keeping

After a worker runs a chain it decrements every child of every chain member and
collects the children that reach count 0 and are chain starts (net_dag.cc lines
217-240).  The two lemmas below characterise this fold exactly, relative to the set B
of nodes whose book-keeping had already been performed before this chain. -/

theorem bookkeepChildren_spec (net : DagNet) (hwf : WFGraph net)
    (Bc : List Nat) (c : Nat) (hc : c < net.numNodes) (hcB : c ∉ Bc) :
    ∀ (kids : List Nat) (counts : Nat → Nat) (tq : List Nat),
      kids.Nodup → (∀ j ∈ kids, j ∈ net.children c) →
      (∀ j ∈ kids, counts j = countNotIn Bc (net.parents j)) →
      (∀ j, j ∉ kids →
        (kids.foldl (bookkeepChild net.isChainStart) (counts, tq)).1 j = counts j) ∧
      (∀ j ∈ kids,
        (kids.foldl (bookkeepChild net.isChainStart) (counts, tq)).1 j =
          countNotIn (Bc ++ [c]) (net.parents j)) ∧
      (kids.foldl (bookkeepChild net.isChainStart) (counts, tq)).2 =
        tq ++ kids.filter (fun j => net.isChainStart j &&
          decide (countNotIn (Bc ++ [c]) (net.parents j) = 0)) := by
  intro kids
  induction kids with
  | nil =>
    intro counts tq _ _ _
    exact ⟨fun j _ => rfl, fun j hj => absurd hj (by simp), by simp⟩
  | cons j rest ih =>
    intro counts tq hnd hsub hcounts
    obtain ⟨hjrest, hndrest⟩ := List.nodup_cons.mp hnd
    have hjc : j ∈ net.children c := hsub j (by simp)
    have hjlt : j < net.numNodes := hwf.children_lt c hc j hjc
    have hcpj : c ∈ net.parents j := (hwf.coherent c hc j hjlt).mpr hjc
    have hpnd : (net.parents j).Nodup := hwf.parents_nodup j hjlt
    have hjcount : counts j = countNotIn Bc (net.parents j) := hcounts j (by simp)
    have hdec : counts j - 1 = countNotIn (Bc ++ [c]) (net.parents j) := by
      rw [hjcount, countNotIn_append_mem Bc c (net.parents j) hpnd hcpj hcB]
      omega
    have hstep : bookkeepChild net.isChainStart (counts, tq) j =
        ((fun k => if k = j then counts j - 1 else counts k),
         if counts j - 1 = 0 ∧ net.isChainStart j = true then tq ++ [j] else tq) := by
      simp only [bookkeepChild]
      by_cases hcond : counts j - 1 = 0 ∧ net.isChainStart j = true
      · rw [if_pos hcond, if_pos hcond]
      · rw [if_neg hcond, if_neg hcond]
    have hfold : (j :: rest).foldl (bookkeepChild net.isChainStart) (counts, tq) =
        rest.foldl (bookkeepChild net.isChainStart)
          ((fun k => if k = j then counts j - 1 else counts k),
           if counts j - 1 = 0 ∧ net.isChainStart j = true then tq ++ [j] else tq) := by
      rw [List.foldl_cons, hstep]
    have hih := ih (fun k => if k = j then counts j - 1 else counts k)
      (if counts j - 1 = 0 ∧ net.isChainStart j = true then tq ++ [j] else tq)
      hndrest (fun j' hj' => hsub j' (by simp [hj']))
      (by
        intro j' hj'
        have hne : ¬ j' = j := fun h => hjrest (h ▸ hj')
        simp only [if_neg hne]
        exact hcounts j' (by simp [hj']))
    refine ⟨?_, ?_, ?_⟩
    · intro j'' hj''
      have hne : ¬ j'' = j := fun h => hj'' (by simp [h])
      have hnr : j'' ∉ rest := fun h => hj'' (by simp [h])
      rw [hfold, hih.1 j'' hnr]
      simp [if_neg hne]
    · intro j' hj'
      rcases List.mem_cons.mp hj' with h | h
      · subst h
        rw [hfold, hih.1 j' hjrest]
        simp only [if_pos rfl]
        exact hdec
      · rw [hfold]
        exact hih.2.1 j' h
    · rw [hfold, hih.2.2, List.filter_cons]
      by_cases hcond : counts j - 1 = 0 ∧ net.isChainStart j = true
      · have hpred : (net.isChainStart j &&
            decide (countNotIn (Bc ++ [c]) (net.parents j) = 0)) = true := by
          rw [hdec] at hcond
          simp [hcond.1, hcond.2]
        rw [if_pos hcond, if_pos hpred]
        simp
      · have hpred : ¬ (net.isChainStart j &&
            decide (countNotIn (Bc ++ [c]) (net.parents j) = 0)) = true := by
          rw [hdec] at hcond
          intro hb
          simp only [Bool.and_eq_true, decide_eq_true_eq] at hb
          exact hcond ⟨hb.2, hb.1⟩
        rw [if_neg hcond, if_neg hpred]

theorem bookkeepFold_spec (net : DagNet) (hwf : WFGraph net) :
    ∀ (chain B : List Nat) (counts : Nat → Nat) (tq : List Nat),
      chain.Nodup → (∀ x ∈ chain, x ∉ B) → (∀ i ∈ chain, i < net.numNodes) →
      (∀ j, j < net.numNodes → counts j = countNotIn B (net.parents j)) →
      (∀ j, j < net.numNodes →
        (chain.foldl (fun acc i =>
            (net.children i).foldl (bookkeepChild net.isChainStart) acc)
          (counts, tq)).1 j = countNotIn (B ++ chain) (net.parents j)) ∧
      ∃ δ, (chain.foldl (fun acc i =>
            (net.children i).foldl (bookkeepChild net.isChainStart) acc)
          (counts, tq)).2 = tq ++ δ ∧ δ.Nodup ∧
        ∀ j ∈ δ, j < net.numNodes ∧ net.isChainStart j = true ∧
          (∀ p ∈ net.parents j, p ∈ B ++ chain) ∧ ∃ p ∈ net.parents j, p ∉ B := by
  intro chain
  induction chain with
  | nil =>
    intro B counts tq _ _ _ hcounts
    refine ⟨?_, [], by simp, by simp, by simp⟩
    intro j hj
    simpa using hcounts j hj
  | cons c cs ih =>
    intro B counts tq hnd hfresh hlt hcounts
    obtain ⟨hccs, hndcs⟩ := List.nodup_cons.mp hnd
    have hclt : c < net.numNodes := hlt c (by simp)
    have hcB : c ∉ B := hfresh c (by simp)
    have hinner := bookkeepChildren_spec net hwf B c hclt hcB (net.children c)
      counts tq (hwf.children_nodup c hclt) (fun j hj => hj)
      (fun j hj => hcounts j (hwf.children_lt c hclt j hj))
    set r1 := (net.children c).foldl (bookkeepChild net.isChainStart) (counts, tq)
      with hr1
    have hcounts1 : ∀ j, j < net.numNodes →
        r1.1 j = countNotIn (B ++ [c]) (net.parents j) := by
      intro j hj
      by_cases hmem : j ∈ net.children c
      · exact hinner.2.1 j hmem
      · have hcnp : c ∉ net.parents j := by
          intro hcp
          exact hmem ((hwf.coherent c hclt j hj).mp hcp)
        rw [hinner.1 j hmem, hcounts j hj, countNotIn_append_notmem B _ c hcnp]
    have hih := ih (B ++ [c]) r1.1 r1.2 hndcs
      (by
        intro x hx hmem
        rcases List.mem_append.mp hmem with h | h
        · exact hfresh x (by simp [hx]) h
        · exact hccs ((List.mem_singleton.mp h) ▸ hx))
      (fun i hi => hlt i (by simp [hi])) hcounts1
    have hfold : (c :: cs).foldl (fun acc i =>
        (net.children i).foldl (bookkeepChild net.isChainStart) acc) (counts, tq) =
        cs.foldl (fun acc i =>
          (net.children i).foldl (bookkeepChild net.isChainStart) acc) (r1.1, r1.2) := by
      rw [List.foldl_cons, ← hr1, Prod.mk.eta]
    constructor
    · intro j hj
      rw [hfold]
      have := hih.1 j hj
      rwa [List.append_assoc, List.singleton_append] at this
    · obtain ⟨δ₁, hδ₁, hδ₁nd, hδ₁props⟩ := hih.2
      refine ⟨(net.children c).filter (fun j => net.isChainStart j &&
          decide (countNotIn (B ++ [c]) (net.parents j) = 0)) ++ δ₁, ?_, ?_, ?_⟩
      · rw [hfold, hδ₁, hinner.2.2, List.append_assoc]
      · refine List.nodup_append.mpr ⟨List.Nodup.filter _ (hwf.children_nodup c hclt),
          hδ₁nd, ?_⟩
        intro x hx hx1
        obtain ⟨hxc, hxpred⟩ := List.mem_filter.mp hx
        simp only [Bool.and_eq_true, decide_eq_true_eq] at hxpred
        have hall : ∀ p ∈ net.parents x, p ∈ B ++ [c] :=
          (countNotIn_eq_zero_iff _ _).mp hxpred.2
        obtain ⟨p, hp, hpnot⟩ := (hδ₁props x hx1).2.2.2
        exact hpnot (hall p hp)
      · intro j hj
        rcases List.mem_append.mp hj with h | h
        · obtain ⟨hjc, hjpred⟩ := List.mem_filter.mp h
          simp only [Bool.and_eq_true, decide_eq_true_eq] at hjpred
          have hjlt : j < net.numNodes := hwf.children_lt c hclt j hjc
          have hall : ∀ p ∈ net.parents j, p ∈ B ++ [c] :=
            (countNotIn_eq_zero_iff _ _).mp hjpred.2
          refine ⟨hjlt, hjpred.1, ?_, ?_⟩
          · intro p hp
            rcases List.mem_append.mp (hall p hp) with h1 | h1
            · exact List.mem_append.mpr (Or.inl h1)
            · exact List.mem_append.mpr (Or.inr (by simp [List.mem_singleton.mp h1]))
          · exact ⟨c, (hwf.coherent c hclt j hjlt).mpr hjc, hcB⟩
        · obtain ⟨hjlt, hstart, hall, p, hp, hpnot⟩ := hδ₁props j h
          refine ⟨hjlt, hstart, ?_, ?_⟩
          · intro q hq
            have := hall q hq
            rwa [List.append_assoc, List.singleton_append] at this
          · refine ⟨p, hp, fun hmem => hpnot ?_⟩
            exact List.mem_append.mpr (Or.inl hmem)

theorem bookkeepChain_def (net : DagNet) (chain : List Nat) (counts : Nat → Nat) :
    bookkeepChain net chain counts =
      chain.foldl (fun acc i =>
        (net.children i).foldl (bookkeepChild net.isChainStart) acc) (counts, []) := rfl

/-! ## Multiset bookkeeping for the worker pool -/

theorem coe_append_multiset (l₁ l₂ : List Nat) :
    ((l₁ ++ l₂ : List Nat) : Multiset Nat) = (l₁ : Multiset Nat) + l₂ := rfl

theorem bind_erase (f : WorkerSt → Multiset Nat) (ws : Multiset WorkerSt)
    (st : WorkerSt) (h : st ∈ ws) :
    ws.bind f = f st + (ws.erase st).bind f := by
  conv_lhs => rw [← Multiset.cons_erase h]
  rw [Multiset.cons_bind]

theorem bind_replicate_idle (f : WorkerSt → Multiset Nat)
    (hf : f WorkerSt.idle = 0) (k : Nat) :
    (Multiset.replicate k WorkerSt.idle).bind f = 0 := by
  induction k with
  | zero => simp
  | succ m ih =>
    rw [Multiset.replicate_succ, Multiset.cons_bind, hf, ih]
    simp

theorem pendingQ_erase_idle (s : RunState) (hidle : WorkerSt.idle ∈ s.workers) :
    pendingQ s = (s.workers.erase WorkerSt.idle).bind pendingOf := by
  rw [pendingQ, bind_erase pendingOf s.workers WorkerSt.idle hidle]
  simp [pendingOf]

theorem inflight_erase_idle (s : RunState) (hidle : WorkerSt.idle ∈ s.workers) :
    inflight s = (s.workers.erase WorkerSt.idle).bind inflightOf := by
  rw [inflight, bind_erase inflightOf s.workers WorkerSt.idle hidle]
  simp [inflightOf]

theorem pendingQ_popRun (net : DagNet) (s : RunState) (idx : Nat) (rest : List Nat)
    (hidle : WorkerSt.idle ∈ s.workers) :
    pendingQ (popRunState net s idx rest) =
      ((bookkeepChain net (net.chainOf idx) s.counts).2 : Multiset Nat) + pendingQ s := by
  rw [pendingQ_erase_idle s hidle]
  show (WorkerSt.ran idx (DAGNet.RunAt net.opRun (net.chainOf idx)).1
        (bookkeepChain net (net.chainOf idx) s.counts).2 ::ₘ
      s.workers.erase WorkerSt.idle).bind pendingOf = _
  rw [Multiset.cons_bind]
  simp [pendingOf]

theorem inflight_popRun (net : DagNet) (s : RunState) (idx : Nat) (rest : List Nat)
    (hidle : WorkerSt.idle ∈ s.workers) :
    inflight (popRunState net s idx rest) = {idx} + inflight s := by
  rw [inflight_erase_idle s hidle]
  show (WorkerSt.ran idx (DAGNet.RunAt net.opRun (net.chainOf idx)).1
        (bookkeepChain net (net.chainOf idx) s.counts).2 ::ₘ
      s.workers.erase WorkerSt.idle).bind inflightOf = _
  rw [Multiset.cons_bind]
  simp [inflightOf]

theorem pendingQ_retire (s : RunState) (hidle : WorkerSt.idle ∈ s.workers) :
    pendingQ (retireState s) = pendingQ s := by
  rw [pendingQ_erase_idle s hidle]
  show (WorkerSt.done ::ₘ s.workers.erase WorkerSt.idle).bind pendingOf = _
  rw [Multiset.cons_bind]
  simp [pendingOf]

theorem inflight_retire (s : RunState) (hidle : WorkerSt.idle ∈ s.workers) :
    inflight (retireState s) = inflight s := by
  rw [inflight_erase_idle s hidle]
  show (WorkerSt.done ::ₘ s.workers.erase WorkerSt.idle).bind inflightOf = _
  rw [Multiset.cons_bind]
  simp [inflightOf]

theorem pendingQ_lockFail (net : DagNet) (s : RunState) (idx : Nat) (ok : Bool)
    (tq : List Nat) (hw : WorkerSt.ran idx ok tq ∈ s.workers) :
    pendingQ s = (tq : Multiset Nat) + pendingQ (lockFailState net s idx ok tq) := by
  rw [pendingQ, bind_erase pendingOf s.workers (WorkerSt.ran idx ok tq) hw]
  show (tq : Multiset Nat) + _ = _
  congr 1
  show _ = (WorkerSt.done ::ₘ s.workers.erase (WorkerSt.ran idx ok tq)).bind pendingOf
  rw [Multiset.cons_bind]
  simp [pendingOf]

theorem inflight_lockFail (net : DagNet) (s : RunState) (idx : Nat) (ok : Bool)
    (tq : List Nat) (hw : WorkerSt.ran idx ok tq ∈ s.workers) :
    inflight s = {idx} + inflight (lockFailState net s idx ok tq) := by
  rw [inflight, bind_erase inflightOf s.workers (WorkerSt.ran idx ok tq) hw]
  show ({idx} : Multiset Nat) + _ = _
  congr 1
  show _ = (WorkerSt.done ::ₘ s.workers.erase (WorkerSt.ran idx ok tq)).bind inflightOf
  rw [Multiset.cons_bind]
  simp [inflightOf]

theorem pendingQ_lockOk (net : DagNet) (s : RunState) (idx : Nat) (ok : Bool)
    (tq : List Nat) (hw : WorkerSt.ran idx ok tq ∈ s.workers) :
    pendingQ s = (tq : Multiset Nat) + pendingQ (lockOkState net s idx ok tq) := by
  rw [pendingQ, bind_erase pendingOf s.workers (WorkerSt.ran idx ok tq) hw]
  show (tq : Multiset Nat) + _ = _
  congr 1
  show _ = (WorkerSt.idle ::ₘ s.workers.erase (WorkerSt.ran idx ok tq)).bind pendingOf
  rw [Multiset.cons_bind]
  simp [pendingOf]

theorem inflight_lockOk (net : DagNet) (s : RunState) (idx : Nat) (ok : Bool)
    (tq : List Nat) (hw : WorkerSt.ran idx ok tq ∈ s.workers) :
    inflight s = {idx} + inflight (lockOkState net s idx ok tq) := by
  rw [inflight, bind_erase inflightOf s.workers (WorkerSt.ran idx ok tq) hw]
  show ({idx} : Multiset Nat) + _ = _
  congr 1
  show _ = (WorkerSt.idle ::ₘ s.workers.erase (WorkerSt.ran idx ok tq)).bind inflightOf
  rw [Multiset.cons_bind]
  simp [inflightOf]

theorem mem_inflight_of_ran (s : RunState) (idx : Nat) (ok : Bool) (tq : List Nat)
    (hw : WorkerSt.ran idx ok tq ∈ s.workers) : idx ∈ inflight s := by
  rw [inflight, bind_erase inflightOf s.workers (WorkerSt.ran idx ok tq) hw]
  simp [inflightOf]

/-! ## Consequences of the invariant -/

theorem inv_pushed_nodup (net : DagNet) (s : RunState) (hinv : Inv net s) :
    s.pushed.Nodup := by
  have h := hinv.fresh
  rw [Multiset.nodup_add] at h
  exact Multiset.coe_nodup.mp h.1

theorem inv_popped_nodup (net : DagNet) (s : RunState) (hinv : Inv net s) :
    s.popped.Nodup := by
  have h := inv_pushed_nodup net s hinv
  rw [hinv.queue_eq] at h
  exact (List.nodup_append.mp h).1

theorem inv_popped_sub_pushed (net : DagNet) (s : RunState) (hinv : Inv net s) :
    ∀ k ∈ s.popped, k ∈ s.pushed := by
  intro k hk
  rw [hinv.queue_eq]
  exact List.mem_append_left _ hk

theorem inv_pushed_keys (net : DagNet) (hcv : WFChains net) (s : RunState)
    (hinv : Inv net s) : ∀ k ∈ s.pushed, k ∈ net.chains.map Prod.fst := by
  intro k hk
  exact (hcv.start_iff k (hinv.pushed_start k hk).1).mp (hinv.pushed_start k hk).2

theorem inv_finished_le (net : DagNet) (s : RunState) (hinv : Inv net s) :
    (s.finished : Multiset Nat) ≤ (s.popped : Multiset Nat) := by
  rw [hinv.popped_split]
  exact Multiset.le_add_right _ _

theorem inv_finished_nodup (net : DagNet) (s : RunState) (hinv : Inv net s) :
    s.finished.Nodup :=
  Multiset.coe_nodup.mp (Multiset.nodup_of_le (inv_finished_le net s hinv)
    (Multiset.coe_nodup.mpr (inv_popped_nodup net s hinv)))

theorem inv_finished_sub_popped (net : DagNet) (s : RunState) (hinv : Inv net s) :
    ∀ k ∈ s.finished, k ∈ s.popped := by
  intro k hk
  have : k ∈ (s.popped : Multiset Nat) :=
    Multiset.mem_of_le (inv_finished_le net s hinv) (Multiset.mem_coe.mpr hk)
  exact Multiset.mem_coe.mp this

/-- Shared reasoning for both critical-section transitions: when the worker holding
chain idx completes its critical section, finished extended by idx is duplicate-free,
stays within the chain keys, and the remaining_ops_ accounting is preserved. -/
theorem inv_finished_extend (net : DagNet) (hcv : WFChains net) (s : RunState)
    (hinv : Inv net s) (idx : Nat) (hidxinf : idx ∈ inflight s) :
    idx ∈ s.popped ∧ idx ∉ s.finished ∧
    s.remaining - (net.chainOf idx).length +
      chainsSize net (s.finished ++ [idx]) = net.numNodes := by
  have hidxpop : idx ∈ s.popped := by
    have : idx ∈ (s.popped : Multiset Nat) := by
      rw [hinv.popped_split]
      exact Multiset.mem_add.mpr (Or.inr hidxinf)
    exact Multiset.mem_coe.mp this
  have hndpop := inv_popped_nodup net s hinv
  have hidxfin : idx ∉ s.finished := by
    have hc1 : Multiset.count idx (s.popped : Multiset Nat) ≤ 1 := by
      rw [Multiset.coe_count]
      exact (List.nodup_iff_count_le_one.mp hndpop) idx
    rw [hinv.popped_split, Multiset.count_add] at hc1
    intro hmem
    have h1 : 1 ≤ Multiset.count idx (s.finished : Multiset Nat) := by
      rw [Multiset.coe_count]
      exact List.count_pos_iff.mpr hmem
    have h2 : 1 ≤ Multiset.count idx (inflight s) :=
      Multiset.one_le_count_iff_mem.mpr hidxinf
    omega
  have hfnd : s.finished.Nodup := inv_finished_nodup net s hinv
  have hfnd' : (s.finished ++ [idx]).Nodup := by
    rw [List.nodup_append]
    refine ⟨hfnd, List.nodup_singleton idx, ?_⟩
    intro a ha hax
    rw [List.mem_singleton] at hax
    exact hidxfin (hax ▸ ha)
  have hfinkeys : ∀ k ∈ s.finished ++ [idx], k ∈ net.chains.map Prod.fst := by
    intro k hk
    rcases List.mem_append.mp hk with h | h
    · exact inv_pushed_keys net hcv s hinv k
        (inv_popped_sub_pushed net s hinv k (inv_finished_sub_popped net s hinv k h))
    · rw [List.mem_singleton] at h
      exact h ▸ inv_pushed_keys net hcv s hinv idx
        (inv_popped_sub_pushed net s hinv idx hidxpop)
  have hsize : chainsSize net (s.finished ++ [idx]) ≤ net.numNodes :=
    chainsSize_le_total net hcv _ hfnd' hfinkeys
  refine ⟨hidxpop, hidxfin, ?_⟩
  have h1 : s.remaining + chainsSize net s.finished = net.numNodes := hinv.remaining_eq
  have h3 : chainsSize net [idx] = (net.chainOf idx).length := by simp [chainsSize]
  rw [chainsSize_append, h3] at hsize ⊢
  omega

/-! ## The invariant holds initially and is preserved by every transition -/

theorem inv_init (net : DagNet) (_hwf : WFGraph net) (hcv : WFChains net) :
    Inv net (initRunState net) := by
  have hpend0 : pendingQ (initRunState net) = 0 :=
    bind_replicate_idle pendingOf rfl net.numWorkers
  have hinfl0 : inflight (initRunState net) = 0 :=
    bind_replicate_idle inflightOf rfl net.numWorkers
  have hfr : (net.initialFrontier).Nodup :=
    List.Nodup.filter _ (List.nodup_range net.numNodes)
  have hfrspec : ∀ j ∈ net.initialFrontier, j < net.numNodes ∧ net.parents j = [] := by
    intro j hj
    obtain ⟨hjr, hjp⟩ := List.mem_filter.mp hj
    exact ⟨List.mem_range.mp hjr, List.isEmpty_iff.mp hjp⟩
  refine ⟨by simp [initRunState], ?_, ?_, ?_, ?_, ?_, ?_, ?_, ?_, ?_, ?_, ?_⟩
  · show ((net.initialFrontier : Multiset Nat) + pendingQ (initRunState net)).Nodup
    rw [hpend0, add_zero]
    exact Multiset.coe_nodup.mpr hfr
  · intro j hj
    obtain ⟨hjlt, hjp⟩ := hfrspec j hj
    exact ⟨hjlt, (DagNet.parentless_chain_start net hcv hjlt hjp).1⟩
  · intro j hj
    rw [hpend0] at hj
    simp at hj
  · intro j hj
    exact Or.inl (hfrspec j hj).2
  · intro j hj
    rw [hpend0] at hj
    simp at hj
  · intro j _
    show (net.parents j).length = countNotIn (bookkept net (initRunState net)) (net.parents j)
    rw [show bookkept net (initRunState net) = [] from rfl, countNotIn_nil]
  · show (([] : List Nat) : Multiset Nat) = (([] : List Nat) : Multiset Nat) + inflight (initRunState net)
    rw [hinfl0, add_zero]
  · show net.numNodes + chainsSize net [] = net.numNodes
    simp [chainsSize]
  · intro st hst idx' ok' tq' heq
    have := Multiset.eq_of_mem_replicate hst
    rw [this] at heq
    exact WorkerSt.noConfusion heq
  · simp [initRunState]
  · intro _ k hk
    simp [initRunState] at hk

theorem inv_popRun (net : DagNet) (hwf : WFGraph net) (hcv : WFChains net)
    (s : RunState) (hinv : Inv net s) (idx : Nat) (rest : List Nat)
    (hidle : WorkerSt.idle ∈ s.workers) (hq : s.queue = idx :: rest) :
    Inv net (popRunState net s idx rest) := by
  have hqidx : idx ∈ s.queue := by rw [hq]; simp
  have hpidx : idx ∈ s.pushed := by
    rw [hinv.queue_eq]
    exact List.mem_append_right _ hqidx
  have hidxlt : idx < net.numNodes := (hinv.pushed_start idx hpidx).1
  have hstart : net.isChainStart idx = true := (hinv.pushed_start idx hpidx).2
  have hkey : idx ∈ net.chains.map Prod.fst := (hcv.start_iff idx hidxlt).mp hstart
  have hchnd : (net.chainOf idx).Nodup := DagNet.chainOf_nodup net hcv hkey
  have hchlt : ∀ x ∈ net.chainOf idx, x < net.numNodes :=
    fun x hx => DagNet.chainOf_lt net hcv hkey hx
  have hndpushed := inv_pushed_nodup net s hinv
  have hnp : idx ∉ s.popped := by
    have h := hndpushed
    rw [hinv.queue_eq, hq] at h
    have hdisj := (List.nodup_append.mp h).2.2
    intro hmem
    exact hdisj hmem (by simp)
  have hfreshchain : ∀ x ∈ net.chainOf idx, x ∉ bookkept net s := by
    intro x hx hxB
    obtain ⟨k, hkpop, hxk⟩ := List.mem_flatMap.mp hxB
    have hkpush : k ∈ s.pushed := inv_popped_sub_pushed net s hinv k hkpop
    have hkkey : k ∈ net.chains.map Prod.fst := inv_pushed_keys net hcv s hinv k hkpush
    have hne : ¬ idx = k := fun h => hnp (h ▸ hkpop)
    exact DagNet.chainOf_disjoint net hcv hkey hkkey hne x hx hxk
  have hbk := bookkeepFold_spec net hwf (net.chainOf idx) (bookkept net s) s.counts []
    hchnd hfreshchain hchlt hinv.counts_eq
  rw [← bookkeepChain_def] at hbk
  obtain ⟨hbkcounts, δ, hδeq, hδnd, hδprops⟩ := hbk
  rw [List.nil_append] at hδeq
  have hbook : bookkept net (popRunState net s idx rest) =
      bookkept net s ++ net.chainOf idx := by
    show (s.popped ++ [idx]).flatMap _ = _
    rw [List.flatMap_append]
    simp [bookkept]
  have hpend : pendingQ (popRunState net s idx rest) =
      (δ : Multiset Nat) + pendingQ s := by
    rw [pendingQ_popRun net s idx rest hidle, hδeq]
  have hinfl := inflight_popRun net s idx rest hidle
  have hδfresh_pushed : ∀ j ∈ δ, j ∉ s.pushed := by
    intro j hj hjp
    obtain ⟨_, _, _, p, hp, hpnot⟩ := hδprops j hj
    rcases hinv.pushed_ready j hjp with h | h
    · rw [h] at hp; simp at hp
    · exact hpnot (h p hp)
  have hδfresh_pending : ∀ j ∈ δ, j ∉ pendingQ s := by
    intro j hj hjp
    obtain ⟨_, _, _, p, hp, hpnot⟩ := hδprops j hj
    exact hpnot ((hinv.pending_ready j hjp).2 p hp)
  refine ⟨?_, ?_, ?_, ?_, ?_, ?_, ?_, ?_, ?_, ?_, ?_, ?_⟩
  · show s.pushed = (s.popped ++ [idx]) ++ rest
    rw [hinv.queue_eq, hq, List.append_assoc, List.singleton_append]
  · show ((s.pushed : Multiset Nat) + pendingQ (popRunState net s idx rest)).Nodup
    rw [hpend]
    have hfr := hinv.fresh
    rw [Multiset.nodup_add] at hfr
    obtain ⟨hpn, hPn, hdisj⟩ := hfr
    rw [Multiset.nodup_add]
    refine ⟨hpn, ?_, ?_⟩
    · rw [Multiset.nodup_add]
      refine ⟨Multiset.coe_nodup.mpr hδnd, hPn, ?_⟩
      rw [Multiset.disjoint_left]
      intro a ha
      exact hδfresh_pending a (Multiset.mem_coe.mp ha)
    · rw [Multiset.disjoint_left]
      intro a ha hmem
      rcases Multiset.mem_add.mp hmem with h | h
      · exact hδfresh_pushed a (Multiset.mem_coe.mp h) (Multiset.mem_coe.mp ha)
      · exact Multiset.disjoint_left.mp hdisj ha h
  · exact hinv.pushed_start
  · intro j hj
    rw [hpend] at hj
    rcases Multiset.mem_add.mp hj with h | h
    · obtain ⟨hlt, hst, _, _⟩ := hδprops j (Multiset.mem_coe.mp h)
      exact ⟨hlt, hst⟩
    · exact hinv.pending_start j h
  · intro j hj
    rcases hinv.pushed_ready j hj with h | h
    · exact Or.inl h
    · refine Or.inr ?_
      intro p hp
      rw [hbook]
      exact List.mem_append_left _ (h p hp)
  · intro j hj
    rw [hpend] at hj
    rcases Multiset.mem_add.mp hj with h | h
    · obtain ⟨_, _, hall, p, hp, _⟩ := hδprops j (Multiset.mem_coe.mp h)
      refine ⟨?_, ?_⟩
      · intro hnil
        rw [hnil] at hp
        simp at hp
      · intro q hq
        rw [hbook]
        exact hall q hq
    · obtain ⟨hne, hall⟩ := hinv.pending_ready j h
      refine ⟨hne, ?_⟩
      intro p hp
      rw [hbook]
      exact List.mem_append_left _ (hall p hp)
  · intro j hj
    show (bookkeepChain net (net.chainOf idx) s.counts).1 j = _
    rw [hbook]
    exact hbkcounts j hj
  · show ((s.popped ++ [idx] : List Nat) : Multiset Nat) =
        (s.finished : Multiset Nat) + inflight (popRunState net s idx rest)
    rw [coe_append_multiset, hinv.popped_split, hinfl,
      show (([idx] : List Nat) : Multiset Nat) = {idx} from rfl, add_assoc,
      add_comm (inflight s) ({idx} : Multiset Nat)]
  · exact hinv.remaining_eq
  · intro st hst idx' ok' tq' heq
    rcases Multiset.mem_cons.mp hst with h | h
    · rw [heq] at h
      injection h with h1 h2 h3
      rw [h2, h1]
    · exact hinv.ran_ok st (Multiset.mem_of_le (Multiset.erase_le _ _) h) idx' ok' tq' heq
  · show s.executed ++ (DAGNet.RunAt net.opRun (net.chainOf idx)).2 =
        (s.popped ++ [idx]).flatMap _
    rw [List.flatMap_append, hinv.executed_eq]
    simp
  · exact hinv.success_ok

theorem inv_retire (net : DagNet) (s : RunState) (hinv : Inv net s)
    (hidle : WorkerSt.idle ∈ s.workers) : Inv net (retireState s) := by
  have hpend := pendingQ_retire s hidle
  have hinfl := inflight_retire s hidle
  refine ⟨hinv.queue_eq, ?_, hinv.pushed_start, ?_, hinv.pushed_ready, ?_,
    hinv.counts_eq, ?_, hinv.remaining_eq, ?_, hinv.executed_eq, hinv.success_ok⟩
  · show ((s.pushed : Multiset Nat) + pendingQ (retireState s)).Nodup
    rw [hpend]
    exact hinv.fresh
  · intro j hj
    rw [hpend] at hj
    exact hinv.pending_start j hj
  · intro j hj
    rw [hpend] at hj
    exact hinv.pending_ready j hj
  · show (s.popped : Multiset Nat) = (s.finished : Multiset Nat) + inflight (retireState s)
    rw [hinfl]
    exact hinv.popped_split
  · intro st hst idx' ok' tq' heq
    rcases Multiset.mem_cons.mp hst with h | h
    · rw [heq] at h
      exact WorkerSt.noConfusion h
    · exact hinv.ran_ok st (Multiset.mem_of_le (Multiset.erase_le _ _) h) idx' ok' tq' heq

theorem inv_lockFail (net : DagNet) (hcv : WFChains net) (s : RunState)
    (hinv : Inv net s) (idx : Nat) (ok : Bool) (tq : List Nat)
    (hw : WorkerSt.ran idx ok tq ∈ s.workers) :
    Inv net (lockFailState net s idx ok tq) := by
  have hpend := pendingQ_lockFail net s idx ok tq hw
  have hinfl := inflight_lockFail net s idx ok tq hw
  have hple : pendingQ (lockFailState net s idx ok tq) ≤ pendingQ s := by
    rw [hpend]
    exact Multiset.le_add_left _ _
  have hidxinf : idx ∈ inflight s := mem_inflight_of_ran s idx ok tq hw
  obtain ⟨hidxpop, hidxfin, hrem⟩ := inv_finished_extend net hcv s hinv idx hidxinf
  refine ⟨hinv.queue_eq, ?_, hinv.pushed_start, ?_, hinv.pushed_ready, ?_,
    hinv.counts_eq, ?_, ?_, ?_, hinv.executed_eq, ?_⟩
  · show ((s.pushed : Multiset Nat) + pendingQ (lockFailState net s idx ok tq)).Nodup
    exact Multiset.nodup_of_le (add_le_add_left hple _) hinv.fresh
  · intro j hj
    exact hinv.pending_start j (Multiset.mem_of_le hple hj)
  · intro j hj
    exact hinv.pending_ready j (Multiset.mem_of_le hple hj)
  · show (s.popped : Multiset Nat) =
        ((s.finished ++ [idx] : List Nat) : Multiset Nat) +
          inflight (lockFailState net s idx ok tq)
    rw [hinv.popped_split, hinfl, coe_append_multiset,
      show (([idx] : List Nat) : Multiset Nat) = {idx} from rfl, add_assoc]
  · exact hrem
  · intro st hst idx' ok' tq' heq
    rcases Multiset.mem_cons.mp hst with h | h
    · rw [heq] at h
      exact WorkerSt.noConfusion h
    · exact hinv.ran_ok st (Multiset.mem_of_le (Multiset.erase_le _ _) h) idx' ok' tq' heq
  · intro hsucc
    exact absurd hsucc (by simp [lockFailState])

theorem inv_lockOk (net : DagNet) (hcv : WFChains net) (s : RunState)
    (hinv : Inv net s) (idx : Nat) (ok : Bool) (tq : List Nat)
    (hw : WorkerSt.ran idx ok tq ∈ s.workers) (hsucc : (s.success && ok) = true) :
    Inv net (lockOkState net s idx ok tq) := by
  have hpend := pendingQ_lockOk net s idx ok tq hw
  have hinfl := inflight_lockOk net s idx ok tq hw
  have hple : pendingQ (lockOkState net s idx ok tq) ≤ pendingQ s := by
    rw [hpend]
    exact Multiset.le_add_left _ _
  simp only [Bool.and_eq_true] at hsucc
  obtain ⟨hssucc, hok⟩ := hsucc
  have htqpend : ∀ j ∈ tq, j ∈ pendingQ s := by
    intro j hj
    rw [hpend]
    exact Multiset.mem_add.mpr (Or.inl (Multiset.mem_coe.mpr hj))
  have hidxinf : idx ∈ inflight s := mem_inflight_of_ran s idx ok tq hw
  obtain ⟨hidxpop, hidxfin, hrem⟩ := inv_finished_extend net hcv s hinv idx hidxinf
  refine ⟨?_, ?_, ?_, ?_, ?_, ?_, hinv.counts_eq, ?_, ?_, ?_, hinv.executed_eq, ?_⟩
  · show s.pushed ++ tq = s.popped ++ (s.queue ++ tq)
    rw [hinv.queue_eq, List.append_assoc]
  · show (((s.pushed ++ tq : List Nat) : Multiset Nat) +
        pendingQ (lockOkState net s idx ok tq)).Nodup
    rw [coe_append_multiset, add_assoc, ← hpend]
    exact hinv.fresh
  · intro j hj
    rcases List.mem_append.mp hj with h | h
    · exact hinv.pushed_start j h
    · exact hinv.pending_start j (htqpend j h)
  · intro j hj
    exact hinv.pending_start j (Multiset.mem_of_le hple hj)
  · intro j hj
    rcases List.mem_append.mp hj with h | h
    · exact hinv.pushed_ready j h
    · exact Or.inr (hinv.pending_ready j (htqpend j h)).2
  · intro j hj
    exact hinv.pending_ready j (Multiset.mem_of_le hple hj)
  · show (s.popped : Multiset Nat) =
        ((s.finished ++ [idx] : List Nat) : Multiset Nat) +
          inflight (lockOkState net s idx ok tq)
    rw [hinv.popped_split, hinfl, coe_append_multiset,
      show (([idx] : List Nat) : Multiset Nat) = {idx} from rfl, add_assoc]
  · exact hrem
  · intro st hst idx' ok' tq' heq
    rcases Multiset.mem_cons.mp hst with h | h
    · rw [heq] at h
      exact WorkerSt.noConfusion h
    · exact hinv.ran_ok st (Multiset.mem_of_le (Multiset.erase_le _ _) h) idx' ok' tq' heq
  · intro _ k hk
    rcases List.mem_append.mp hk with h | h
    · exact hinv.success_ok hssucc k h
    · rw [List.mem_singleton] at h
      subst h
      have := hinv.ran_ok (WorkerSt.ran k ok tq) hw k ok tq rfl
      rw [← this]
      exact hok

theorem inv_preserved (net : DagNet) (hwf : WFGraph net) (hcv : WFChains net)
    {s t : RunState} (hinv : Inv net s) (hstep : WorkerStep net s t) : Inv net t := by
  cases hstep with
  | popRun idx rest hidle hq => exact inv_popRun net hwf hcv s hinv idx rest hidle hq
  | retire hidle hq hcl => exact inv_retire net s hinv hidle
  | lockFail idx ok tq hw hfail => exact inv_lockFail net hcv s hinv idx ok tq hw
  | lockOk idx ok tq hw hsucc => exact inv_lockOk net hcv s hinv idx ok tq hw hsucc

theorem inv_reachable (net : DagNet) (hwf : WFGraph net) (hcv : WFChains net)
    {s : RunState} (hreach : Reachable net s) : Inv net s := by
  induction hreach with
  | init => exact inv_init net hwf hcv
  | step hr hstep ih => exact inv_preserved net hwf hcv ih hstep

/-! ## Main consequences of the invariant -/

theorem keys_sub_finished_of_remaining_zero (net : DagNet) (hcv : WFChains net)
    (s : RunState) (hinv : Inv net s) (hrem : s.remaining = 0) :
    ∀ k ∈ net.chains.map Prod.fst, k ∈ s.finished := by
  intro k hk
  by_contra hkf
  have hfnd := inv_finished_nodup net s hinv
  have hfkeys : ∀ x ∈ s.finished, x ∈ net.chains.map Prod.fst := fun x hx =>
    inv_pushed_keys net hcv s hinv x (inv_popped_sub_pushed net s hinv x
      (inv_finished_sub_popped net s hinv x hx))
  have hlt := chainsSize_lt_total net hcv s.finished hfnd hfkeys k hk hkf
  have hlen : 1 ≤ (net.chainOf k).length := by
    have hne := DagNet.chainOf_ne_nil net hcv hk
    cases h : net.chainOf k with
    | nil => exact absurd h hne
    | cons a l => simp [h]
  have hrem' := hinv.remaining_eq
  omega

theorem bookkept_all_of_remaining_zero (net : DagNet) (hcv : WFChains net)
    (s : RunState) (hinv : Inv net s) (hrem : s.remaining = 0) :
    ∀ p, p < net.numNodes → p ∈ bookkept net s := by
  intro p hp
  obtain ⟨q, hq, hpq⟩ := List.mem_flatMap.mp (hcv.flat_cover p hp)
  have hqkey : q.1 ∈ net.chains.map Prod.fst := List.mem_map_of_mem Prod.fst hq
  have hqfin : q.1 ∈ s.finished :=
    keys_sub_finished_of_remaining_zero net hcv s hinv hrem q.1 hqkey
  have hqpop : q.1 ∈ s.popped := inv_finished_sub_popped net s hinv q.1 hqfin
  refine List.mem_flatMap.mpr ⟨q.1, hqpop, ?_⟩
  rw [DagNet.chainOf_eq net hcv (show (q.1, q.2) ∈ net.chains from hq)]
  exact hpq

theorem counts_zero_of_remaining_zero (net : DagNet) (hwf : WFGraph net)
    (hcv : WFChains net) (s : RunState) (hinv : Inv net s) (hrem : s.remaining = 0) :
    ∀ j, j < net.numNodes → s.counts j = 0 := by
  intro j hj
  rw [hinv.counts_eq j hj, countNotIn_eq_zero_iff]
  intro p hp
  exact bookkept_all_of_remaining_zero net hcv s hinv hrem p (hwf.parents_lt j hj p hp)

theorem success_false_of_failed_executed (net : DagNet) (hcv : WFChains net)
    (s : RunState) (hinv : Inv net s)
    (hdone : s.remaining = 0 ∨ s.success = false)
    (hfail : ∃ nn ∈ s.executed, net.opRun nn = false) :
    s.success = false := by
  by_cases hs : s.success = false
  · exact hs
  · exfalso
    have hstrue : s.success = true := by
      cases h : s.success
      · exact absurd h hs
      · rfl
    have hrem : s.remaining = 0 := by
      rcases hdone with h | h
      · exact h
      · exact absurd h hs
    obtain ⟨nn, hnn, hfnn⟩ := hfail
    rw [hinv.executed_eq] at hnn
    obtain ⟨idx, hidxpop, hnntrace⟩ := List.mem_flatMap.mp hnn
    have hres : (DAGNet.RunAt net.opRun (net.chainOf idx)).1 = false :=
      DAGNet.runAt_mem_false net.opRun _ nn hnntrace hfnn
    have hidxkey : idx ∈ net.chains.map Prod.fst :=
      inv_pushed_keys net hcv s hinv idx (inv_popped_sub_pushed net s hinv idx hidxpop)
    have hidxfin : idx ∈ s.finished :=
      keys_sub_finished_of_remaining_zero net hcv s hinv hrem idx hidxkey
    have := hinv.success_ok hstrue idx hidxfin
    rw [hres] at this
    exact Bool.noConfusion this

theorem no_push_after_failure (net : DagNet) {s t : RunState}
    (hstep : WorkerStep net s t) (hfail : s.success = false) : t.pushed = s.pushed := by
  cases hstep with
  | popRun idx rest _ _ => rfl
  | retire _ _ _ => rfl
  | lockFail idx ok tq _ _ => rfl
  | lockOk idx ok tq hw hsucc =>
    rw [hfail] at hsucc
    simp at hsucc

/-! ## Well-formedness and reachability of the concrete fixtures -/

theorem netC4_wfg : WFGraph netC4 :=
  ⟨by decide, by decide, by decide, by decide, by decide⟩

theorem netC4_wfc : WFChains netC4 :=
  ⟨by decide, by decide, by decide, by decide, by decide,
   by
    intro p hp
    simp only [netC4, List.mem_singleton] at hp
    subst hp
    exact List.chain'_singleton _,
   by decide⟩

theorem netC4_reach_a : Reachable netC4 runC4a :=
  Reachable.step Reachable.init (WorkerStep.popRun 0 [] (by decide) (by decide))

theorem netC4_reach_b : Reachable netC4 runC4b :=
  Reachable.step netC4_reach_a (WorkerStep.lockOk 0 true [] (by decide) (by decide))

theorem netC1_wfg : WFGraph netC1 :=
  ⟨by decide, by decide, by decide, by decide, by decide⟩

theorem netC1_wfc : WFChains netC1 :=
  ⟨by decide, by decide, by decide, by decide, by decide,
   by
    intro p hp
    simp only [netC1, List.mem_cons, List.not_mem_nil, or_false] at hp
    rcases hp with rfl | rfl | rfl <;> exact List.chain'_singleton _,
   by decide⟩

theorem netC1_reach_d : Reachable netC1 runC1d :=
  Reachable.step (Reachable.step (Reachable.step (Reachable.step Reachable.init
    (WorkerStep.popRun 0 [1] (by decide) (by decide)))
    (WorkerStep.popRun 1 [] (by decide) (by decide)))
    (WorkerStep.lockOk 1 true [2] (by decide) (by decide)))
    (WorkerStep.popRun 2 [] (by decide) (by decide))

theorem netC1_reach_e : Reachable netC1 runC1e :=
  Reachable.step netC1_reach_d (WorkerStep.lockFail 0 false [] (by decide) (by decide))

/-! ## Claims C1, C3 and C4 -/

/-- C1 counterexample: in netC1 (graph 0 → 2 ← 1, operator 0 fails, two workers) the
interleaving popRun(0), popRun(1), lockOk(1), popRun(2) is a reachable execution in
which node 0's operator reported failure and yet node 2 — which transitively depends
on node 0's chain — has had its run entry point invoked, because the sibling worker
enqueued chain 2 before the failure was recorded in the shared success flag.  This
refutes the claim that no transitive dependent of a failed chain is ever executed. -/
theorem claim_C1_counterexample :
    Reachable netC1 runC1d ∧
    netC1.opRun 0 = false ∧ 0 ∈ runC1d.executed ∧
    DagNet.dependsOn netC1 2 0 ∧ 2 ∈ runC1d.executed := by
  refine ⟨netC1_reach_d, by decide, by decide, ?_, by decide⟩
  exact DagNet.dependsOn.parent (by decide)

/-- C1 amended: for every run in which some executed node's operator reported failure,
whenever the coordinator's wake-up condition holds the shared success flag reads
false, so the run returns failure; and once the failure has been recorded in the
shared success flag, no transition enqueues any further chain id.  (The original
claim's stronger assertion — that no node transitively depending on the failed chain
is ever executed — fails on the code: the dependency-count decrement happens outside
the critical section, so a sibling worker may observe the dependent become ready and
enqueue it before the failure is recorded; see the counterexample.) -/
theorem claim_C1_failure_propagation (net : DagNet) (hwf : WFGraph net)
    (hcv : WFChains net) (s t : RunState) (hreach : Reachable net s)
    (hstep : WorkerStep net s t) :
    ((s.remaining = 0 ∨ s.success = false) →
      (∃ nn ∈ s.executed, net.opRun nn = false) → s.success = false) ∧
    (s.success = false → t.pushed = s.pushed) := by
  have hinv := inv_reachable net hwf hcv hreach
  exact ⟨fun hdone hfail => success_false_of_failed_executed net hcv s hinv hdone hfail,
    fun hfailflag => no_push_after_failure net hstep hfailflag⟩

/-- C1 amended, witness: at the state runC1e of netC1 the failure has been recorded;
the run satisfies the wake-up implication and the subsequent lockFail transition of
the remaining worker pushes nothing. -/
theorem claim_C1_witness :
    ((runC1e.remaining = 0 ∨ runC1e.success = false) →
      (∃ nn ∈ runC1e.executed, netC1.opRun nn = false) → runC1e.success = false) ∧
    (runC1e.success = false →
      (lockFailState netC1 runC1e 2 true []).pushed = runC1e.pushed) :=
  claim_C1_failure_propagation netC1 netC1_wfg netC1_wfc runC1e _ netC1_reach_e
    (WorkerStep.lockFail 2 true [] (by decide) (by decide))

/-- C3: within a single run no chain id is ever pushed to the work queue more than
once (the push history is duplicate-free); every pushed id is a chain start and was
pushed either at seeding (it is in the parentless initial frontier) or after its
runtime parent count reached zero; and when the run completes (remaining_ops_ = 0)
every chain start has been pushed, so each is enqueued exactly once. -/
theorem claim_C3_at_most_one_enqueue (net : DagNet) (hwf : WFGraph net)
    (hcv : WFChains net) (s : RunState) (hreach : Reachable net s) :
    s.pushed.Nodup ∧
    (∀ j ∈ s.pushed, net.isChainStart j = true ∧
      (j ∈ net.initialFrontier ∨ s.counts j = 0)) ∧
    (s.remaining = 0 → ∀ p ∈ net.chains, p.1 ∈ s.pushed) := by
  have hinv := inv_reachable net hwf hcv hreach
  refine ⟨inv_pushed_nodup net s hinv, ?_, ?_⟩
  · intro j hj
    refine ⟨(hinv.pushed_start j hj).2, ?_⟩
    rcases hinv.pushed_ready j hj with h | h
    · left
      have hjlt := (hinv.pushed_start j hj).1
      refine List.mem_filter.mpr ⟨List.mem_range.mpr hjlt, ?_⟩
      rw [h]
      rfl
    · right
      rw [hinv.counts_eq j (hinv.pushed_start j hj).1, countNotIn_eq_zero_iff]
      exact h
  · intro hrem p hp
    have hkey : p.1 ∈ net.chains.map Prod.fst := List.mem_map_of_mem Prod.fst hp
    have hfin := keys_sub_finished_of_remaining_zero net hcv s hinv hrem p.1 hkey
    exact inv_popped_sub_pushed net s hinv p.1 (inv_finished_sub_popped net s hinv p.1 hfin)

/-- C3 witness: after three transitions of the two-worker run of netC1 the push
history is [0, 1, 2], which is duplicate-free. -/
theorem claim_C3_witness : runC1c.pushed.Nodup :=
  (claim_C3_at_most_one_enqueue netC1 netC1_wfg netC1_wfc runC1c
    (Reachable.step (Reachable.step (Reachable.step Reachable.init
      (WorkerStep.popRun 0 [1] (by decide) (by decide)))
      (WorkerStep.popRun 1 [] (by decide) (by decide)))
      (WorkerStep.lockOk 1 true [2] (by decide) (by decide)))).1

/-- C4: in every reachable state in which the run is complete (remaining_ops_ = 0)
with the success flag still true — exactly the state in which DoRunAsync returns
success — every node's runtime_parent_count_ is 0, the coordinator's enforcement pass
succeeds and it returns true; and, in general, a nonzero leftover count on the success
path makes the coordinator abort through CAFFE_ENFORCE rather than return a normal
failure. -/
theorem claim_C4_success_counts_zero (net : DagNet) (hwf : WFGraph net)
    (hcv : WFChains net) (s : RunState) (hreach : Reachable net s)
    (hrem : s.remaining = 0) (hsucc : s.success = true) :
    (∀ j, j < net.numNodes → s.counts j = 0) ∧
    (DAGNetBase.DoRunAsync net.numWorkers net.initialFrontier
        { hasQueue := true, numThreads := net.numWorkers } s.success
        ((List.range net.numNodes).map s.counts)).2.1 = RunReturn.ret true ∧
    (∀ (numW : Nat) (fr cs : List Nat) (pool : PoolState), (∃ c2 ∈ cs, ¬ c2 = 0) →
      (DAGNetBase.DoRunAsync numW fr pool true cs).2.1 = RunReturn.enforceFail) := by
  have hinv := inv_reachable net hwf hcv hreach
  have hzero := counts_zero_of_remaining_zero net hwf hcv s hinv hrem
  refine ⟨hzero, ?_, ?_⟩
  · have hall : (((List.range net.numNodes).map s.counts).all (fun c => c = 0)) = true := by
      rw [List.all_eq_true]
      intro x hx
      obtain ⟨j, hj, hjx⟩ := List.mem_map.mp hx
      subst hjx
      simp only [decide_eq_true_eq]
      exact hzero j (List.mem_range.mp hj)
    simp [DAGNetBase.DoRunAsync, hsucc, hall]
  · intro numW fr cs pool hex
    have hall : ¬ (cs.all (fun c => c = 0) = true) := by
      rw [List.all_eq_true]
      intro hcontra
      obtain ⟨c2, hc2, hc2ne⟩ := hex
      exact hc2ne (by simpa using hcontra c2 hc2)
    simp [DAGNetBase.DoRunAsync, hall]

/-- C4 witness: the completed successful one-node run has runtime parent count 0 at
its only node. -/
theorem claim_C4_witness : runC4b.counts 0 = 0 :=
  (claim_C4_success_counts_zero netC4 netC4_wfg netC4_wfc runC4b netC4_reach_b
    (by decide) (by decide)).1 0 (by decide)

end caffe2
